import Mathlib

/-!
Shallow embedding of the python_blokus rules engine (src/Pieces.py and
src/Gamestate.py) and verification of the frozen claims about it.

Conventions of the embedding:
* A board coordinate is an integer pair (x, y).  The Python code stores
  shapes as 2xn numpy matrices whose columns are coordinates; we store the
  list of columns.
* A corner is a 2x2 matrix, one coordinate on the piece and one outside of
  it (diagonally adjacent).  The Python code stores a set of corners as a
  2x2n matrix of consecutive column pairs; we store the list of those 2x2
  blocks (`Crn`), which is what BlokusFunctions.splitCornerArray produces.
* The Python `Piece` objects are mutated in place; here every transform
  returns the new piece value.  `Piece.setOrientation`, whose Python body
  contains an unbounded `while` loop, is given explicit fuel: fuel 4 is
  complete because after one rotation the orientation enters a cycle of
  period at most 4, so a run that does not reach its target within four
  rotations never reaches it (the Python loop then diverges, modelled by
  `none`).
-/

abbrev Pt := Int × Int

/-- One corner block: column `p0` is the coordinate on the piece, column
`p1` the diagonally adjacent coordinate outside of it. -/
structure Crn where
  p0 : Pt
  p1 : Pt
deriving DecidableEq

/-- Swap the two columns of a corner (the `inv` matrices built throughout
Gamestate.py). -/
def swapCrn (c : Crn) : Crn := ⟨c.p1, c.p0⟩

/-- The matrix [[-1,0],[0,1]] of Piece.flipH. -/
def hflipPt (c : Pt) : Pt := (-c.1, c.2)

/-- The matrix [[1,0],[0,-1]] of Piece.flipV. -/
def vflipPt (c : Pt) : Pt := (c.1, -c.2)

/-- The matrix [[0,1],[-1,0]] used by Piece.rotate for one turn. -/
def rot1Pt (c : Pt) : Pt := (c.2, -c.1)

/-- The matrix [[-1,0],[0,-1]] used by Piece.rotate for two turns. -/
def rot2Pt (c : Pt) : Pt := (-c.1, -c.2)

/-- The matrix [[0,-1],[1,0]] used by Piece.rotate for three turns. -/
def rot3Pt (c : Pt) : Pt := (-c.2, c.1)

/-- Translation by (dx, dy). -/
def translatePt (dx dy : Int) (c : Pt) : Pt := (c.1 + dx, c.2 + dy)

/-- Apply a coordinate map to both columns of a corner. -/
def mapCrn (f : Pt → Pt) (c : Crn) : Crn := ⟨f c.p0, f c.p1⟩

/-- The Piece class of Pieces.py: shape and corner coordinates, the three
symmetry flags, the size, and the 3-bit orientation code. -/
structure Piece where
  name : String
  shape : List Pt
  corners : List Crn
  r90 : Bool
  r180 : Bool
  chiral : Bool
  size : Nat
  orientation : Nat
deriving DecidableEq

/-- Piece.reduceOrientation, on the raw data: the three guarded blocks of
the Python method (each an if-chain on the current orientation). -/
def reduceOrient (r90 r180 chiral : Bool) (o : Nat) : Nat :=
  if r90 = true ∧ r180 = true ∧ chiral = false then
    if o = 1 then 0 else if o = 3 then 2 else if o = 5 then 4 else if o = 7 then 6 else o
  else if r90 = true ∧ r180 = false ∧ chiral = true then
    if o = 2 then 0 else if o = 3 then 1 else if o = 6 then 4 else if o = 7 then 5 else o
  else if r90 = true ∧ r180 = false ∧ chiral = false then
    if o = 1 ∨ o = 2 ∨ o = 3 then 0 else if o = 5 ∨ o = 6 ∨ o = 7 then 4 else o
  else o

/-- Piece.reduceOrientation: change own orientation to the smallest
congruent orientation considering the piece's symmetry. -/
def Piece.reduceOrientation (p : Piece) : Piece :=
  { p with orientation := reduceOrient p.r90 p.r180 p.chiral p.orientation }

/-- Piece.flipH: flip over the y-axis; always XOR bit 0 of the orientation,
and XOR bit 1 when the piece is horizontally aligned; then reduce. -/
def Piece.flipH (p : Piece) : Piece :=
  let o1 := p.orientation ^^^ 1
  let o2 := if o1 &&& 4 ≠ 0 then o1 ^^^ 2 else o1
  Piece.reduceOrientation
    { p with corners := p.corners.map (mapCrn hflipPt),
             shape := p.shape.map hflipPt,
             orientation := o2 }

/-- Piece.flipV: flip over the x-axis; always XOR bit 0 of the orientation,
and XOR bit 1 when the piece is vertically aligned; then reduce. -/
def Piece.flipV (p : Piece) : Piece :=
  let o1 := p.orientation ^^^ 1
  let o2 := if o1 &&& 4 = 0 then o1 ^^^ 2 else o1
  Piece.reduceOrientation
    { p with corners := p.corners.map (mapCrn vflipPt),
             shape := p.shape.map vflipPt,
             orientation := o2 }

/-- Piece.rotate: rotate by 90*turns degrees; a no-op (Python returns
False) unless turns is 1 or 3 with r90, or 2 with r180. -/
def Piece.rotate (p : Piece) (turns : Nat) : Piece :=
  if turns = 1 ∧ p.r90 = true then
    let o2 := if p.orientation &&& 4 = 0 then p.orientation ^^^ 4 else p.orientation ^^^ 6
    Piece.reduceOrientation
      { p with corners := p.corners.map (mapCrn rot1Pt),
               shape := p.shape.map rot1Pt, orientation := o2 }
  else if turns = 2 ∧ p.r180 = true then
    Piece.reduceOrientation
      { p with corners := p.corners.map (mapCrn rot2Pt),
               shape := p.shape.map rot2Pt, orientation := p.orientation ^^^ 2 }
  else if turns = 3 ∧ p.r90 = true then
    let o2 := if p.orientation &&& 4 ≠ 0 then p.orientation ^^^ 4 else p.orientation ^^^ 6
    Piece.reduceOrientation
      { p with corners := p.corners.map (mapCrn rot3Pt),
               shape := p.shape.map rot3Pt, orientation := o2 }
  else p

/-- Piece.translate: translate shape and corners by [dx, dy]. -/
def Piece.translate (p : Piece) (dx dy : Int) : Piece :=
  { p with shape := p.shape.map (translatePt dx dy),
           corners := p.corners.map (mapCrn (translatePt dx dy)) }

/-- Python `z & 1` for an arbitrary integer (two's complement parity). -/
def intBit0 (z : Int) : Int := z.emod 2

/-- The `while self.orientation != new_orientation: self.rotate(1)` loop of
Piece.setOrientation, with fuel and a count of rotations performed. -/
def Piece.rotLoop (p : Piece) (target : Int) (fuel count : Nat) : Option (Piece × Nat) :=
  if (p.orientation : Int) = target then some (p, count)
  else
    match fuel with
    | 0 => none
    | n + 1 => Piece.rotLoop (p.rotate 1) target n (count + 1)

/-- Piece.setOrientation: flip (with flipH) when the flip bit differs, then
rotate until the orientation matches, then reduce.  Returns the resulting
piece together with the number of rotations performed, or `none` when the
Python loop diverges (fuel 4 is complete, see the header comment). -/
def Piece.setOrientation (p : Piece) (target : Int) : Option (Piece × Nat) :=
  let p1 := if intBit0 (p.orientation : Int) ≠ intBit0 target then p.flipH else p
  match p1.rotLoop target 4 0 with
  | none => none
  | some (q, cnt) => some (q.reduceOrientation, cnt)

/-- The 21 piece kinds of the catalog. -/
inductive PieceKind
  | F | I | L | N | P | T | U | V | W | X | Y | Z
  | I4 | L4 | N4 | O | T4
  | I3 | V3
  | Two
  | One
deriving DecidableEq, Fintype

/-- The catalog constructors of Pieces.py: the initial piece value of each
kind (shape columns and corner column pairs transcribed from the numpy
literals). -/
def kindPiece : PieceKind → Piece
  | .F =>
    { name := "F", shape := [(0, 0), (-1, 0), (-1, 1), (-2, 1), (-1, 2)],
      corners := [⟨(0, 0), (1, -1)⟩, ⟨(-1, 0), (-2, -1)⟩, ⟨(-1, 2), (0, 3)⟩,
                  ⟨(-1, 2), (-2, 3)⟩, ⟨(0, 0), (1, 1)⟩, ⟨(-2, 1), (-3, 0)⟩,
                  ⟨(-2, 1), (-3, 2)⟩],
      r90 := true, r180 := true, chiral := true, size := 5, orientation := 0 }
  | .I =>
    { name := "I", shape := [(0, 0), (0, 1), (0, 2), (0, 3), (0, 4)],
      corners := [⟨(0, 0), (-1, -1)⟩, ⟨(0, 0), (1, -1)⟩, ⟨(0, 4), (-1, 5)⟩,
                  ⟨(0, 4), (1, 5)⟩],
      r90 := true, r180 := false, chiral := false, size := 5, orientation := 0 }
  | .L =>
    { name := "L", shape := [(0, 0), (0, -1), (0, -2), (0, -3), (1, 0)],
      corners := [⟨(0, 0), (-1, 1)⟩, ⟨(1, 0), (2, 1)⟩, ⟨(1, 0), (2, -1)⟩,
                  ⟨(0, -3), (-1, -4)⟩, ⟨(0, -3), (1, -4)⟩],
      r90 := true, r180 := true, chiral := true, size := 5, orientation := 0 }
  | .N =>
    { name := "N", shape := [(0, 0), (0, -1), (0, -2), (1, -2), (1, -3)],
      corners := [⟨(0, 0), (-1, 1)⟩, ⟨(0, 0), (1, 1)⟩, ⟨(0, -2), (-1, -3)⟩,
                  ⟨(1, -2), (2, -1)⟩, ⟨(1, -3), (0, -4)⟩, ⟨(1, -3), (2, -4)⟩],
      r90 := true, r180 := true, chiral := true, size := 5, orientation := 0 }
  | .P =>
    { name := "P", shape := [(0, 0), (1, 0), (0, 1), (1, 1), (0, 2)],
      corners := [⟨(0, 0), (-1, -1)⟩, ⟨(1, 0), (2, -1)⟩, ⟨(1, 1), (2, 2)⟩,
                  ⟨(0, 2), (-1, 3)⟩, ⟨(0, 2), (1, 3)⟩],
      r90 := true, r180 := true, chiral := true, size := 5, orientation := 0 }
  | .T =>
    { name := "T", shape := [(0, 0), (1, 0), (2, 0), (1, 1), (1, 2)],
      corners := [⟨(0, 0), (-1, -1)⟩, ⟨(0, 0), (-1, 1)⟩, ⟨(2, 0), (3, -1)⟩,
                  ⟨(2, 0), (3, 1)⟩, ⟨(1, 2), (0, 3)⟩, ⟨(1, 2), (2, 3)⟩],
      r90 := true, r180 := true, chiral := false, size := 5, orientation := 0 }
  | .U =>
    { name := "U", shape := [(0, 0), (0, 1), (1, 1), (2, 1), (2, 0)],
      corners := [⟨(0, 0), (-1, -1)⟩, ⟨(0, 0), (1, -1)⟩, ⟨(0, 1), (-1, 2)⟩,
                  ⟨(2, 1), (3, 2)⟩, ⟨(2, 0), (1, -1)⟩, ⟨(2, 0), (3, -1)⟩],
      r90 := true, r180 := true, chiral := false, size := 5, orientation := 0 }
  | .V =>
    { name := "V", shape := [(0, 0), (0, -1), (1, 0), (0, -2), (2, 0)],
      corners := [⟨(0, 0), (-1, 1)⟩, ⟨(0, -2), (-1, -3)⟩, ⟨(0, -2), (1, -3)⟩,
                  ⟨(2, 0), (3, 1)⟩, ⟨(2, 0), (3, -1)⟩],
      r90 := true, r180 := true, chiral := false, size := 5, orientation := 0 }
  | .W =>
    { name := "W", shape := [(0, 0), (-1, 0), (-1, -1), (-2, -1), (-2, -2)],
      corners := [⟨(0, 0), (1, 1)⟩, ⟨(0, 0), (1, -1)⟩, ⟨(-1, 0), (-2, 1)⟩,
                  ⟨(-1, -1), (0, -2)⟩, ⟨(-2, -1), (-3, 0)⟩, ⟨(-2, -2), (-1, -3)⟩,
                  ⟨(-2, -2), (-3, -3)⟩],
      r90 := true, r180 := true, chiral := true, size := 5, orientation := 0 }
  | .X =>
    { name := "X", shape := [(1, 0), (0, 1), (1, 1), (2, 1), (1, 2)],
      corners := [⟨(1, 0), (0, -1)⟩, ⟨(1, 0), (2, -1)⟩, ⟨(0, 1), (-1, 0)⟩,
                  ⟨(0, 1), (-1, 2)⟩, ⟨(1, 2), (0, 3)⟩, ⟨(1, 2), (2, 3)⟩,
                  ⟨(2, 1), (3, 0)⟩, ⟨(2, 1), (3, 2)⟩],
      r90 := false, r180 := false, chiral := false, size := 5, orientation := 0 }
  | .Y =>
    { name := "Y", shape := [(0, 0), (0, 1), (0, 2), (0, 3), (-1, 1)],
      corners := [⟨(0, 0), (1, -1)⟩, ⟨(0, 0), (-1, -1)⟩, ⟨(-1, 1), (-2, 0)⟩,
                  ⟨(-1, 1), (-2, 2)⟩, ⟨(0, 3), (1, 4)⟩, ⟨(0, 3), (-1, 4)⟩],
      r90 := true, r180 := true, chiral := true, size := 5, orientation := 0 }
  | .Z =>
    { name := "Z", shape := [(0, 0), (1, 0), (1, 1), (1, 2), (2, 2)],
      corners := [⟨(0, 0), (-1, -1)⟩, ⟨(0, 0), (-1, 1)⟩, ⟨(1, 0), (2, -1)⟩,
                  ⟨(1, 2), (0, 3)⟩, ⟨(2, 2), (3, 3)⟩, ⟨(2, 2), (3, 1)⟩],
      r90 := true, r180 := false, chiral := true, size := 5, orientation := 0 }
  | .I4 =>
    { name := "I4", shape := [(0, 0), (0, 1), (0, 2), (0, 3)],
      corners := [⟨(0, 0), (-1, -1)⟩, ⟨(0, 0), (1, -1)⟩, ⟨(0, 3), (-1, 4)⟩,
                  ⟨(0, 3), (1, 4)⟩],
      r90 := true, r180 := false, chiral := false, size := 4, orientation := 0 }
  | .L4 =>
    { name := "L4", shape := [(0, 0), (1, 0), (0, -1), (0, -2)],
      corners := [⟨(0, 0), (-1, 1)⟩, ⟨(1, 0), (2, 1)⟩, ⟨(1, 0), (2, -1)⟩,
                  ⟨(0, -2), (-1, -3)⟩, ⟨(0, -2), (1, -3)⟩],
      r90 := true, r180 := true, chiral := true, size := 4, orientation := 0 }
  | .N4 =>
    { name := "N4", shape := [(0, 0), (0, 1), (-1, 1), (-1, 2)],
      corners := [⟨(0, 0), (1, -1)⟩, ⟨(0, 0), (-1, -1)⟩, ⟨(0, 1), (1, 2)⟩,
                  ⟨(-1, 1), (-2, 0)⟩, ⟨(-1, 2), (0, 3)⟩, ⟨(-1, 2), (-2, 3)⟩],
      r90 := true, r180 := false, chiral := true, size := 4, orientation := 0 }
  | .O =>
    { name := "O", shape := [(0, 0), (1, 0), (0, 1), (1, 1)],
      corners := [⟨(0, 0), (-1, -1)⟩, ⟨(1, 0), (2, -1)⟩, ⟨(0, 1), (-1, 2)⟩,
                  ⟨(1, 1), (2, 2)⟩],
      r90 := false, r180 := false, chiral := false, size := 4, orientation := 0 }
  | .T4 =>
    { name := "T4", shape := [(0, 0), (1, 0), (1, 1), (2, 0)],
      corners := [⟨(0, 0), (-1, -1)⟩, ⟨(2, 0), (3, -1)⟩, ⟨(1, 1), (0, 2)⟩,
                  ⟨(1, 1), (2, 2)⟩],
      r90 := true, r180 := true, chiral := false, size := 4, orientation := 0 }
  | .I3 =>
    { name := "I3", shape := [(0, 0), (0, 1), (0, 2)],
      corners := [⟨(0, 0), (-1, -1)⟩, ⟨(0, 0), (1, -1)⟩, ⟨(0, 2), (-1, 3)⟩,
                  ⟨(0, 2), (1, 3)⟩],
      r90 := true, r180 := false, chiral := false, size := 3, orientation := 0 }
  | .V3 =>
    { name := "V3", shape := [(0, 0), (-1, 0), (-1, -1)],
      corners := [⟨(0, 0), (1, 1)⟩, ⟨(0, 0), (1, -1)⟩, ⟨(-1, 0), (-2, 1)⟩,
                  ⟨(-1, -1), (0, -2)⟩, ⟨(-1, -1), (-2, -2)⟩],
      r90 := true, r180 := true, chiral := false, size := 3, orientation := 0 }
  | .Two =>
    { name := "Two", shape := [(0, 0), (0, 1)],
      corners := [⟨(0, 0), (-1, -1)⟩, ⟨(0, 0), (1, -1)⟩, ⟨(0, 1), (-1, 2)⟩,
                  ⟨(0, 1), (1, 2)⟩],
      r90 := true, r180 := false, chiral := false, size := 2, orientation := 0 }
  | .One =>
    { name := "One", shape := [(0, 0)],
      corners := [⟨(0, 0), (-1, -1)⟩, ⟨(0, 0), (1, -1)⟩, ⟨(0, 0), (1, 1)⟩,
                  ⟨(0, 0), (-1, 1)⟩],
      r90 := false, r180 := false, chiral := false, size := 1, orientation := 0 }

/-- All 21 kinds, in the order of initRefHand. -/
def allKinds : List PieceKind :=
  [.One, .Two, .I3, .V3, .I4, .L4, .N4, .O, .T4, .F, .I, .L, .N, .P, .T,
   .U, .V, .W, .X, .Y, .Z]

/-- The fixed name order of Gamestate.sortedHand (sorted by piece size). -/
def sortedKinds : List PieceKind :=
  [.F, .I, .L, .N, .P, .T, .U, .V, .W, .X, .Y, .Z, .I4, .L4, .N4, .O, .T4,
   .I3, .V3, .Two, .One]

/-- The name of a kind as used for dictionary keys in Gamestate.py. -/
def kindName (k : PieceKind) : String := (kindPiece k).name

/-- Dictionary lookup `Gamestate.referenceHand[name]` (and the hand dicts):
`none` models a Python KeyError. -/
def nameToKind (s : String) : Option PieceKind :=
  allKinds.find? (fun k => kindName k == s)

/-! ## Gamestate.py -/

/-- The board: cell ownership keyed by (x, y) coordinates (the Python
numpy array is indexed board[y, x]); 0 is empty, 1–4 the player colors. -/
abbrev Board := Pt → Nat

/-- The fixed board size of Gamestate.py. -/
def boardsize : Int := 20

/-- initBoard: an empty 20x20 board. -/
def initBoard : Board := fun _ => 0

/-- A hand: which of the 21 pieces a player still holds (the Python dict
with the 21 piece names as keys). -/
abbrev Hand := PieceKind → Bool

/-- initHand: a beginning hand with one of each piece. -/
def initHand : Hand := fun _ => true

/-- startCorner: the list with the synthetic starting corner for a player
(2x2 matrices transcribed column-wise, as for pieces). -/
def startCorner (color : Nat) : List Crn :=
  if color = 1 then [⟨(-1, -1), (0, 0)⟩]
  else if color = 2 then [⟨(-1, 20), (0, 19)⟩]
  else if color = 3 then [⟨(20, 20), (19, 19)⟩]
  else if color = 4 then [⟨(20, -1), (19, 0)⟩]
  else []

/-- The Gamestate class: hands, corner lists, board, turn, pass count and
last played piece names. -/
structure Gamestate where
  blue : Hand
  yellow : Hand
  red : Hand
  green : Hand
  bcorners : List Crn
  ycorners : List Crn
  rcorners : List Crn
  gcorners : List Crn
  board : Board
  turn : Nat
  passCount : Nat
  lastPlayed : List (Option String)

/-- The beginning gamestate (the default arguments of Gamestate.__init__). -/
def initState : Gamestate :=
  { blue := initHand, yellow := initHand, red := initHand, green := initHand,
    bcorners := startCorner 1, ycorners := startCorner 2,
    rcorners := startCorner 3, gcorners := startCorner 4,
    board := initBoard, turn := 1, passCount := 0,
    lastPlayed := [none, none, none, none] }

/-- getHand: the hand of a color; Python returns None outside 1–4 (we use
the empty hand, which is never consulted on reachable turns). -/
def Gamestate.getHand (s : Gamestate) (color : Nat) : Hand :=
  if color = 1 then s.blue
  else if color = 2 then s.yellow
  else if color = 3 then s.red
  else if color = 4 then s.green
  else fun _ => false

/-- getCorners: the corner list of a color (empty outside 1–4, as for
getHand). -/
def Gamestate.getCorners (s : Gamestate) (color : Nat) : List Crn :=
  if color = 1 then s.bcorners
  else if color = 2 then s.ycorners
  else if color = 3 then s.rcorners
  else if color = 4 then s.gcorners
  else []

/-- Replace the hand of a color. -/
def Gamestate.setHand (s : Gamestate) (color : Nat) (h : Hand) : Gamestate :=
  if color = 1 then { s with blue := h }
  else if color = 2 then { s with yellow := h }
  else if color = 3 then { s with red := h }
  else if color = 4 then { s with green := h }
  else s

/-- Replace the corner list of a color. -/
def Gamestate.setCorners (s : Gamestate) (color : Nat) (l : List Crn) : Gamestate :=
  if color = 1 then { s with bcorners := l }
  else if color = 2 then { s with ycorners := l }
  else if color = 3 then { s with rcorners := l }
  else if color = 4 then { s with gcorners := l }
  else s

/-- advanceTurn: next player, cyclic over 1–4. -/
def advanceTurn (t : Nat) : Nat :=
  if t + 1 = 5 then 1 else t + 1

/-- sortedHand: the held pieces in the fixed size-sorted name order.  The
Python method returns the shared referenceHand objects, mutable scratch
reused across calls; we return the catalog values (every reachable scratch
state is a translate of a state our enumeration visits, so all observable
results agree — established by the congruence lemmas below). -/
def Gamestate.sortedHand (s : Gamestate) (color : Nat) : List Piece :=
  sortedKinds.filterMap
    (fun k => if s.getHand color k = true then some (kindPiece k) else none)

/-- Modelled from the spec: BlokusFunctions.findExtremes is not in src/;
per the spec the emitted anchor is "the piece's bounding-box minimum x/y",
so it returns the extremes (xmin, xmax, ymin, ymax) of a coordinate list
(indices 0 and 2 are the ones Gamestate.py reads). -/
def findExtremes (l : List Pt) : Int × Int × Int × Int :=
  match l with
  | [] => (0, 0, 0, 0)
  | a :: rest =>
    ((rest.map Prod.fst).foldl min a.1, (rest.map Prod.fst).foldl max a.1,
     (rest.map Prod.snd).foldl min a.2, (rest.map Prod.snd).foldl max a.2)

/-- Modelled from the spec: BlokusFunctions.splitCornerArray is not in
src/; it splits a 2x2n corner matrix into its n 2x2 corner blocks (the
numpy column pairs).  Our corner lists already store those blocks, so the
split is the identity. -/
def splitCornerArray (l : List Crn) : List Crn := l

/-- One cell of the Gamestate.moveConflicts loop: off-board and occupancy
checks, then the four lateral neighbours against the mover's color.  The
Python loop meant to disregard neighbours inside the move rebinds its loop
variable (`coord = False`) instead of updating the `nears` dict, so it has
no effect and is omitted. -/
def cellConflict (board : Board) (color : Nat) (c : Pt) : Bool :=
  if c.1 < 0 ∨ c.2 < 0 ∨ boardsize ≤ c.1 ∨ boardsize ≤ c.2 then true
  else if board c ≠ 0 then true
  else
    (decide (c.1 < boardsize - 1) && decide (board (c.1 + 1, c.2) = color))
    || (decide (c.2 < boardsize - 1) && decide (board (c.1, c.2 + 1) = color))
    || (decide (0 < c.1) && decide (board (c.1 - 1, c.2) = color))
    || (decide (0 < c.2) && decide (board (c.1, c.2 - 1) = color))

/-- moveConflicts: whether a piece overlaps or is edge-adjacent (own color)
with anything already on the board, or leaves the board. -/
def Gamestate.moveConflicts (s : Gamestate) (p : Piece) : Bool :=
  p.shape.any (cellConflict s.board s.turn)

/-- moveCheck: one of the piece's corners must match (column-swapped) an
open corner of the mover, and the piece must not conflict. -/
def Gamestate.moveCheck (s : Gamestate) (p : Piece) : Bool :=
  let bcorners := s.getCorners s.turn
  let diagonal := (splitCornerArray p.corners).any
    (fun cur => bcorners.any (fun bc => decide (bc = swapCrn cur)))
  if diagonal = false then false
  else !(s.moveConflicts p)

/-- Delete the first occurrence of a corner from a list (the `del
oldList[j]` + break of Gamestate.updateCorners), reporting whether one was
found. -/
def removeFirstCrn : List Crn → Crn → List Crn × Bool
  | [], _ => ([], false)
  | a :: rest, x =>
    if a = x then (rest, true)
    else
      let r := removeFirstCrn rest x
      (a :: r.1, r.2)

/-- Whether a corner matrix contains a given entry (Python `v in cur` on
the 2x2 numpy array). -/
def crnHasVal (c : Crn) (v : Int) : Bool :=
  decide (c.p0.1 = v) || decide (c.p0.2 = v) || decide (c.p1.1 = v)
    || decide (c.p1.2 = v)

/-- updateCorners: for each placed corner, delete its mirror from the open
list if present (obliteration), and otherwise append it unless it touches
the board edge values -1 or 20. -/
def updateCornersList (old : List Crn) (pcorners : List Crn) : List Crn :=
  (splitCornerArray pcorners).foldl
    (fun acc cur =>
      let del := removeFirstCrn acc (swapCrn cur)
      if crnHasVal cur (-1) = true ∨ crnHasVal cur boardsize = true then del.1
      else if del.2 = true then del.1
      else del.1 ++ [cur])
    old

/-- Point update of the board. -/
def bset (b : Board) (c : Pt) (v : Nat) : Board :=
  fun c2 => if c2 = c then v else b c2

/-- The coordinate loop of Gamestate.colorSet: color cells one by one,
stopping (with the partial board) at the first already-occupied cell. -/
def colorSetGo (color : Nat) : Board → List Pt → Bool × Board
  | b, [] => (true, b)
  | b, c :: rest =>
    if b c ≠ 0 then (false, b) else colorSetGo color (bset b c color) rest

/-- colorSet: set the given coordinates to a color (False and no change
when the color is not 1–4). -/
def colorSet (b : Board) (coords : List Pt) (color : Nat) : Bool × Board :=
  if 1 ≤ color ∧ color ≤ 4 then colorSetGo color b coords else (false, b)

/-- setLastPlayed: record the played piece name for a color. -/
def setLastPlayedList (lp : List (Option String)) (name : String)
    (color : Nat) : List (Option String) :=
  if 1 ≤ color ∧ color ≤ 4 then lp.set (color - 1) (some name) else lp

/-! ### Move enumeration -/

/-- A move value passed to update: a Python tuple/list of primitive
values.  A legal placement move is a 4-tuple (name, orientation, xmin,
ymin); everything whose length is not 4 is treated as a pass. -/
inductive PyVal
  | pstr (s : String)
  | pint (z : Int)
deriving DecidableEq

abbrev Mv := List PyVal

/-- The move records emitted by findPieceMoves. -/
def mkMv (name : String) (ori x y : Int) : Mv :=
  [.pstr name, .pint ori, .pint x, .pint y]

/-- The transformations listMoves/canMove drive a piece through: the
initial orientation, then rotations, then (for chiral pieces) a vertical
flip followed by rotations again; findPieceMoves runs after each. -/
inductive PieceStep
  | start
  | rot
  | flip
deriving DecidableEq

def applyStep : PieceStep → Piece → Piece
  | .start, p => p
  | .rot, p => p.rotate 1
  | .flip, p => p.flipV

/-- The rotation block of listMoves/canMove: three rotations when r90 and
r180, one when only r90, none otherwise. -/
def rotSteps (r90 r180 : Bool) : List PieceStep :=
  if r90 = true ∧ r180 = true then [.rot, .rot, .rot]
  else if r90 = true ∧ r180 = false then [.rot]
  else []

def pieceSteps (p : Piece) : List PieceStep :=
  [.start] ++ rotSteps p.r90 p.r180
    ++ (if p.chiral = true then .flip :: rotSteps p.r90 p.r180 else [])

/-- The pairing test of findPieceMoves: the direction of the piece's
corner at index i equals the direction of the column-swapped open corner
(they point at each other diagonally). -/
def fpmDir (p : Piece) (i : Nat) (bc : Crn) : Prop :=
  (p.corners.getD i ⟨(0, 0), (0, 0)⟩).p1.1 -
      (p.corners.getD i ⟨(0, 0), (0, 0)⟩).p0.1 =
    (swapCrn bc).p1.1 - (swapCrn bc).p0.1 ∧
  (p.corners.getD i ⟨(0, 0), (0, 0)⟩).p1.2 -
      (p.corners.getD i ⟨(0, 0), (0, 0)⟩).p0.2 =
    (swapCrn bc).p1.2 - (swapCrn bc).p0.2

instance (p : Piece) (i : Nat) (bc : Crn) : Decidable (fpmDir p i bc) := by
  unfold fpmDir; infer_instance

/-- The xdif translation of findPieceMoves for a matching pairing. -/
def fpmXd (p : Piece) (i : Nat) (bc : Crn) : Int :=
  (swapCrn bc).p0.1 - (p.corners.getD i ⟨(0, 0), (0, 0)⟩).p0.1

/-- The ydif translation of findPieceMoves for a matching pairing. -/
def fpmYd (p : Piece) (i : Nat) (bc : Crn) : Int :=
  (swapCrn bc).p0.2 - (p.corners.getD i ⟨(0, 0), (0, 0)⟩).p0.2

/-- The inner loop of findPieceMoves for one piece corner (index i): try
every open corner, translating the piece to each matching pairing and
emitting a move when it does not conflict.  The piece and its tracked
bounding-box minimum are threaded through, as the Python code mutates them
in place. -/
def fpmBCs (s : Gamestate) (i : Nat) :
    List Crn → Piece → Int → Int → List Mv → List Mv × Piece × Int × Int
  | [], p, xm, ym, acc => (acc, p, xm, ym)
  | bc :: rest, p, xm, ym, acc =>
    if fpmDir p i bc then
      fpmBCs s i rest (p.translate (fpmXd p i bc) (fpmYd p i bc))
        (xm + fpmXd p i bc) (ym + fpmYd p i bc)
        (if s.moveConflicts (p.translate (fpmXd p i bc) (fpmYd p i bc)) = false
         then acc ++
           [mkMv (p.translate (fpmXd p i bc) (fpmYd p i bc)).name
              (Int.ofNat (p.translate (fpmXd p i bc) (fpmYd p i bc)).orientation)
              (xm + fpmXd p i bc) (ym + fpmYd p i bc)]
         else acc)
    else fpmBCs s i rest p xm ym acc

/-- The outer loop of findPieceMoves over the piece's corner indices. -/
def fpmIdx (s : Gamestate) :
    List Nat → Piece → Int → Int → List Mv → List Mv × Piece × Int × Int
  | [], p, xm, ym, acc => (acc, p, xm, ym)
  | i :: is, p, xm, ym, acc =>
    let r := fpmBCs s i (s.getCorners s.turn) p xm ym acc
    fpmIdx s is r.2.1 r.2.2.1 r.2.2.2 r.1

/-- findPieceMoves: all moves for a piece in its current orientation
(returning also the piece state the in-place translations left behind). -/
def Gamestate.findPieceMoves (s : Gamestate) (p : Piece) : List Mv × Piece :=
  ((fpmIdx s (List.range (splitCornerArray p.corners).length) p
      (findExtremes p.shape).1 (findExtremes p.shape).2.2.1 []).1,
   (fpmIdx s (List.range (splitCornerArray p.corners).length) p
      (findExtremes p.shape).1 (findExtremes p.shape).2.2.1 []).2.1)

/-- canFindPieceMoves' inner loop: as fpmBCs but returning at the first
legal placement. -/
def cfpmBCs (s : Gamestate) (i : Nat) :
    List Crn → Piece → Int → Int → Bool × Piece × Int × Int
  | [], p, xm, ym => (false, p, xm, ym)
  | bc :: rest, p, xm, ym =>
    if fpmDir p i bc then
      if s.moveConflicts (p.translate (fpmXd p i bc) (fpmYd p i bc)) = false
      then (true, p.translate (fpmXd p i bc) (fpmYd p i bc),
        xm + fpmXd p i bc, ym + fpmYd p i bc)
      else cfpmBCs s i rest (p.translate (fpmXd p i bc) (fpmYd p i bc))
        (xm + fpmXd p i bc) (ym + fpmYd p i bc)
    else cfpmBCs s i rest p xm ym

/-- canFindPieceMoves' outer loop over corner indices. -/
def cfpmIdx (s : Gamestate) :
    List Nat → Piece → Int → Int → Bool × Piece × Int × Int
  | [], p, xm, ym => (false, p, xm, ym)
  | i :: is, p, xm, ym =>
    let r := cfpmBCs s i (s.getCorners s.turn) p xm ym
    if r.1 = true then r else cfpmIdx s is r.2.1 r.2.2.1 r.2.2.2

/-- canFindPieceMoves: findPieceMoves that returns true at the first legal
placement. -/
def Gamestate.canFindPieceMoves (s : Gamestate) (p : Piece) : Bool × Piece :=
  ((cfpmIdx s (List.range (splitCornerArray p.corners).length) p
      (findExtremes p.shape).1 (findExtremes p.shape).2.2.1).1,
   (cfpmIdx s (List.range (splitCornerArray p.corners).length) p
      (findExtremes p.shape).1 (findExtremes p.shape).2.2.1).2.1)

/-- The per-piece body of listMoves: findPieceMoves after each
transformation step. -/
def runPiece (s : Gamestate) : List PieceStep → Piece → List Mv × Piece
  | [], p => ([], p)
  | st :: rest, p =>
    ((s.findPieceMoves (applyStep st p)).1 ++
       (runPiece s rest (s.findPieceMoves (applyStep st p)).2).1,
     (runPiece s rest (s.findPieceMoves (applyStep st p)).2).2)

/-- The per-piece body of canMove. -/
def runPieceCan (s : Gamestate) : List PieceStep → Piece → Bool × Piece
  | [], p => (false, p)
  | st :: rest, p =>
    if (s.canFindPieceMoves (applyStep st p)).1 = true
    then (true, (s.canFindPieceMoves (applyStep st p)).2)
    else runPieceCan s rest (s.canFindPieceMoves (applyStep st p)).2

/-- Python `True in hand.values()`. -/
def handNonempty (h : Hand) : Bool := allKinds.any (fun k => h k)

def listMovesGo (s : Gamestate) : List Piece → List Mv
  | [] => []
  | p :: ps => (runPiece s (pieceSteps p) p).1 ++ listMovesGo s ps

/-- listMoves: all possible moves for the current player. -/
def Gamestate.listMoves (s : Gamestate) : List Mv :=
  if handNonempty (s.getHand s.turn) = false ∨ (s.getCorners s.turn).length = 0
  then []
  else listMovesGo s (s.sortedHand s.turn)

def canMoveGo (s : Gamestate) : List Piece → Bool
  | [] => false
  | p :: ps =>
    if (runPieceCan s (pieceSteps p) p).1 = true then true else canMoveGo s ps

/-- canMove: like listMoves, but true as soon as a single move is found. -/
def Gamestate.canMove (s : Gamestate) : Bool :=
  if handNonempty (s.getHand s.turn) = false ∨ (s.getCorners s.turn).length = 0
  then false
  else canMoveGo s (s.sortedHand s.turn)

/-- isTerminal: four consecutive passes. -/
def Gamestate.isTerminal (s : Gamestate) : Bool := decide (4 ≤ s.passCount)

/-! ### Move application -/

/-- The outcome of Gamestate.update: `hang` models a Python crash or a
diverging setOrientation loop, `rejected` the explicit `return False`
sites (which occur before any mutation), `ok` a completed pass or
placement. -/
inductive UpdResult
  | hang
  | rejected (s : Gamestate)
  | ok (s : Gamestate)

def UpdResult.isOk : UpdResult → Bool
  | .ok _ => true
  | _ => false

/-- The pass branch of update: count the pass and advance the turn. -/
def passState (s : Gamestate) : Gamestate :=
  { s with passCount := s.passCount + 1, turn := advanceTurn s.turn }

/-- The mutation tail of update, reached only after moveCheck succeeded:
color the squares, update the mover's corners and hand, reset the pass
count, record lastPlayed, advance the turn. -/
def applyPlace (s : Gamestate) (name : String) (kind : PieceKind)
    (piece : Piece) : Gamestate :=
  { (((Gamestate.setCorners
        { s with board := (colorSet s.board piece.shape s.turn).2 } s.turn
        (updateCornersList (s.getCorners s.turn) piece.corners)).setHand s.turn
        (fun k => if k = kind then false else s.getHand s.turn k))) with
    passCount := 0,
    lastPlayed := setLastPlayedList s.lastPlayed name s.turn,
    turn := advanceTurn s.turn }

/-- Translate a piece so that the minima of its bounding box land on the
move's anchor (the xdif/ydif translation of update). -/
def placedPiece (q : Piece) (mx my : Int) : Piece :=
  q.translate (mx - (findExtremes q.shape).1) (my - (findExtremes q.shape).2.2.1)

/-- The placement branch of update (move of length 4).  The piece is
rebuilt from the catalog at the requested orientation and translated so
that its bounding-box minimum is the move's anchor. -/
def updatePlace (s : Gamestate) (name : String) (code mx my : Int) : UpdResult :=
  match nameToKind name with
  | none => .hang
  | some kind =>
    if s.getHand s.turn kind = false then .rejected s
    else
      match (kindPiece kind).setOrientation code with
      | none => .hang
      | some pr =>
        if s.moveCheck (placedPiece pr.1 mx my) = false then .rejected s
        else .ok (applyPlace s name kind (placedPiece pr.1 mx my))

/-- update: apply a move if it is legal (anything that is not a 4-tuple is
a pass). -/
def Gamestate.update (s : Gamestate) (move : Mv) : UpdResult :=
  if move.length ≠ 4 then .ok (passState s)
  else
    match move with
    | [.pstr name, .pint code, .pint mx, .pint my] => updatePlace s name code mx my
    | _ => .hang

/-! ### Derived enumeration data used by the finite checks -/

/-- The piece states listMoves/canMove feed to findPieceMoves, ignoring the
in-place translations findPieceMoves leaves behind (those only translate
the piece; see the congruence lemmas). -/
def enumPiecesAux : List PieceStep → Piece → List Piece
  | [], _ => []
  | st :: rest, p => applyStep st p :: enumPiecesAux rest (applyStep st p)

def enumPieces (k : PieceKind) : List Piece :=
  enumPiecesAux (pieceSteps (kindPiece k)) (kindPiece k)

/-- Boolean sublist-as-sets test. -/
def subListB {α : Type} [DecidableEq α] (a b : List α) : Bool :=
  a.all (fun x => decide (x ∈ b))

/-- Boolean equality of lists as sets. -/
def setEqB {α : Type} [DecidableEq α] (a b : List α) : Bool :=
  subListB a b && subListB b a

def translateList (t : Pt) (l : List Pt) : List Pt :=
  l.map (fun c => (c.1 + t.1, c.2 + t.2))

/-- Whether two cell sets are equal up to translation (the translation, if
any, must align the bounding-box minima). -/
def shapeCongrB (a b : List Pt) : Bool :=
  let ea := findExtremes a
  let eb := findExtremes b
  setEqB (translateList (eb.1 - ea.1, eb.2.2.1 - ea.2.2.1) a) b

/-- The reconstruction check relating the enumerator's piece states to
update's setOrientation-based reconstruction: for an enumerated state q,
rebuilding the piece from the catalog at q's orientation code must succeed
and agree with q on name, orientation, and (after aligning bounding
boxes) on the shape and corner sets. -/
def pieceReconOK (k : PieceKind) (q : Piece) : Bool :=
  match (kindPiece k).setOrientation (Int.ofNat q.orientation) with
  | none => false
  | some pr =>
    let r := pr.1
    let t : Pt := ((findExtremes q.shape).1 - (findExtremes r.shape).1,
                   (findExtremes q.shape).2.2.1 - (findExtremes r.shape).2.2.1)
    let rT := r.translate t.1 t.2
    decide (r.name = q.name) && decide (r.orientation = q.orientation)
      && setEqB rT.shape q.shape && setEqB rT.corners q.corners

/-! ### Further definitions used to state and settle the claims -/

/-- The spec's orbit-size formula: (hasDistinct90 ? (hasDistinct180 ? 4 : 2)
: (hasDistinct180 ? 2 : 1)) x (isChiral ? 2 : 1).  This definition follows
the spec's words, for comparison with the enumeration. -/
def specOrbitSize (p : Piece) : Nat :=
  (if p.r90 = true then (if p.r180 = true then 4 else 2)
   else (if p.r180 = true then 2 else 1))
    * (if p.chiral = true then 2 else 1)

/-- Whether the shapes in a list are pairwise non-congruent (no two equal
up to translation). -/
def pairwiseNonCongrB : List Piece → Bool
  | [] => true
  | p :: ps =>
    ps.all (fun q => !(shapeCongrB p.shape q.shape)) && pairwiseNonCongrB ps

/-- Whether setOrientation, started at piece state p with the orientation
code of q as target, terminates with at most three rotations and reaches
that code. -/
def setOrientOK (p q : Piece) : Bool :=
  match p.setOrientation (Int.ofNat q.orientation) with
  | none => false
  | some rc => decide (rc.1.orientation = q.orientation) && decide (rc.2 ≤ 3)

/-- n successive single rotations (the states the setOrientation loop runs
through). -/
def rotN : Nat → Piece → Piece
  | 0, p => p
  | n + 1, p => rotN n (p.rotate 1)

/-- Every piece state setOrientation can return when started from the
initial state of kind k: at most one flipH followed by at most four
rotations, then the trailing reduceOrientation. -/
def reconCand (k : PieceKind) : List Piece :=
  (List.range 5).map (fun i => (rotN i (kindPiece k)).reduceOrientation)
    ++ (List.range 5).map (fun i => (rotN i ((kindPiece k).flipH)).reduceOrientation)

/-- Every corner's on-piece column is a cell of the shape. -/
def cornersInShape (p : Piece) : Prop := ∀ cr ∈ p.corners, cr.p0 ∈ p.shape

instance (p : Piece) : Decidable (cornersInShape p) := by
  unfold cornersInShape; infer_instance

/-- The off-board cell that a player's synthetic starting corner presents
as already-played territory (the first column of the startCorner matrix);
for player 1 it is (-1,-1), diagonally outside the board corner (0,0). -/
def startDiagCell (color : Nat) : Pt :=
  ((startCorner color).getD 0 ⟨(0, 0), (0, 0)⟩).p0

/-- Diagonal adjacency of two cells. -/
def DiagAdj (a b : Pt) : Prop :=
  (a.1 - b.1 = 1 ∨ a.1 - b.1 = -1) ∧ (a.2 - b.2 = 1 ∨ a.2 - b.2 = -1)

instance : DecidablePred fun ab : Pt × Pt => DiagAdj ab.1 ab.2 := by
  intro ab; unfold DiagAdj; infer_instance

instance (a b : Pt) : Decidable (DiagAdj a b) := by
  unfold DiagAdj; infer_instance

/-- Orthogonal (edge) adjacency of two cells. -/
def OrthAdj (a b : Pt) : Prop :=
  (a.1 = b.1 ∧ (a.2 = b.2 + 1 ∨ b.2 = a.2 + 1))
    ∨ (a.2 = b.2 ∧ (a.1 = b.1 + 1 ∨ b.1 = a.1 + 1))

instance (a b : Pt) : Decidable (OrthAdj a b) := by
  unfold OrthAdj; infer_instance

/-- A cell lies on the 20x20 board. -/
def OnBoard (c : Pt) : Prop :=
  0 ≤ c.1 ∧ c.1 < boardsize ∧ 0 ≤ c.2 ∧ c.2 < boardsize

instance (c : Pt) : Decidable (OnBoard c) := by
  unfold OnBoard; infer_instance

/-- What it means for findPieceMoves, entered with piece state q, to emit
the move m: some translate of q passes the corner pairing against an open
corner of the mover (its corner list contains the swapped open corner
exactly) and does not conflict, and m records q's name and orientation
with that translate's bounding-box minima. -/
def EmittedRel (s : Gamestate) (q : Piece) (m : Mv) : Prop :=
  ∃ dx dy : Int, ∃ bc ∈ s.getCorners s.turn,
    swapCrn bc ∈ (q.translate dx dy).corners ∧
    s.moveConflicts (q.translate dx dy) = false ∧
    m = mkMv q.name (Int.ofNat q.orientation)
      (findExtremes (q.translate dx dy).shape).1
      (findExtremes (q.translate dx dy).shape).2.2.1

/-- One executed placement: the mover's color and the colored cells. -/
structure Placement where
  color : Nat
  cells : List Pt

/-- The cells a placement move colors (re-deriving update's piece
construction from the move record alone). -/
def placedCellsOfMv (m : Mv) : List Pt :=
  match m with
  | [.pstr name, .pint code, .pint mx, .pint my] =>
    match nameToKind name with
    | none => []
    | some kind =>
      match (kindPiece kind).setOrientation code with
      | none => []
      | some pr => (placedPiece pr.1 mx my).shape
  | _ => []

/-- The states reachable from the initial gamestate by moves that update
accepts, together with the placement history. -/
inductive Reach : Gamestate → List Placement → Prop
  | init : Reach initState []
  | pass {s h m s2} : Reach s h → s.update m = .ok s2 → m.length ≠ 4 →
      Reach s2 h
  | place {s h m s2} : Reach s h → s.update m = .ok s2 → m.length = 4 →
      Reach s2 ({ color := s.turn, cells := placedCellsOfMv m } :: h)

/-- Two placements of the same color never put cells edge to edge. -/
def SepPlacements (pl1 pl2 : Placement) : Prop :=
  pl1.color = pl2.color →
    ∀ a ∈ pl1.cells, ∀ b ∈ pl2.cells, ¬ OrthAdj a b

/-- The inductive invariant for the reachable states: the turn is a player
color, placements are by player colors and on the board, the board agrees
with the placement history, and distinct same-color placements are never
edge-adjacent. -/
def GoodHist (s : Gamestate) (h : List Placement) : Prop :=
  (1 ≤ s.turn ∧ s.turn ≤ 4) ∧
  (∀ pl ∈ h, 1 ≤ pl.color ∧ pl.color ≤ 4) ∧
  (∀ pl ∈ h, ∀ c ∈ pl.cells, OnBoard c) ∧
  (∀ pl ∈ h, ∀ c ∈ pl.cells, s.board c = pl.color) ∧
  (∀ c : Pt, s.board c ≠ 0 → ∃ pl ∈ h, c ∈ pl.cells) ∧
  List.Pairwise SepPlacements h

/-- The orientation component of a single rotation followed by reduction
(for a piece with the r90 flag). -/
def rotOrientStep (b c : Bool) (o : Nat) : Nat :=
  reduceOrient true b c (if o &&& 4 = 0 then o ^^^ 4 else o ^^^ 6)

/-! ## Theorems -/

theorem rot1Pt_four (c : Pt) : rot1Pt (rot1Pt (rot1Pt (rot1Pt c))) = c := by
  obtain ⟨x, y⟩ := c
  simp [rot1Pt]

theorem map_rot1_four (l : List Pt) :
    (((l.map rot1Pt).map rot1Pt).map rot1Pt).map rot1Pt = l := by
  induction l with
  | nil => rfl
  | cons a t ih => simp only [List.map_cons, rot1Pt_four, ih]

theorem mapCrn_rot1_four (cr : Crn) :
    mapCrn rot1Pt (mapCrn rot1Pt (mapCrn rot1Pt (mapCrn rot1Pt cr))) = cr := by
  obtain ⟨p0, p1⟩ := cr
  simp [mapCrn, rot1Pt_four]

theorem map_crn_rot1_four (l : List Crn) :
    (((l.map (mapCrn rot1Pt)).map (mapCrn rot1Pt)).map (mapCrn rot1Pt)).map
      (mapCrn rot1Pt) = l := by
  induction l with
  | nil => rfl
  | cons a t ih => simp only [List.map_cons, mapCrn_rot1_four, ih]

theorem rotate_one_mk_true (nm : String) (sh : List Pt) (co : List Crn)
    (b c : Bool) (sz o : Nat) :
    (Piece.mk nm sh co true b c sz o).rotate 1 =
      Piece.mk nm (sh.map rot1Pt) (co.map (mapCrn rot1Pt)) true b c sz
        (rotOrientStep b c o) := by
  simp [Piece.rotate, Piece.reduceOrientation, rotOrientStep]

theorem rotate_one_mk_false (nm : String) (sh : List Pt) (co : List Crn)
    (b c : Bool) (sz o : Nat) :
    (Piece.mk nm sh co false b c sz o).rotate 1 =
      Piece.mk nm sh co false b c sz o := by
  simp [Piece.rotate]

theorem rotOrientStep_four :
    ∀ (b c : Bool) (o : Nat), o < 8 → reduceOrient true b c o = o →
      rotOrientStep b c (rotOrientStep b c (rotOrientStep b c
        (rotOrientStep b c o))) = o := by decide

/-- Claim C9: for every piece (any kind, in any orientation its own
operations can leave it in — i.e. any orientation code below 8 fixed by
reduceOrientation — and at any translation, since shape and corners are
arbitrary), four successive rotate(1) calls restore shape, corners and the
orientation code exactly (hence in particular up to translation). -/
theorem c9_rotate_four (p : Piece)
    (hfix : reduceOrient p.r90 p.r180 p.chiral p.orientation = p.orientation)
    (hlt : p.orientation < 8) :
    (((p.rotate 1).rotate 1).rotate 1).rotate 1 = p := by
  obtain ⟨nm, sh, co, a, b, c, sz, o⟩ := p
  simp only at hfix hlt
  cases a with
  | false =>
    rw [rotate_one_mk_false, rotate_one_mk_false, rotate_one_mk_false,
      rotate_one_mk_false]
  | true =>
    rw [rotate_one_mk_true, rotate_one_mk_true, rotate_one_mk_true,
      rotate_one_mk_true, map_rot1_four, map_crn_rot1_four,
      rotOrientStep_four b c o hlt hfix]

/-- Witness for C9 at the F piece. -/
theorem c9_rotate_four_witness :
    (((((kindPiece .F).rotate 1).rotate 1).rotate 1).rotate 1) = kindPiece .F :=
  c9_rotate_four (kindPiece .F) (by decide) (by decide)

/-- Claim C10: any move value whose length is not 4 is treated as a pass
with no validation, in any state (terminal ones included): update
succeeds, passCount grows by one, the turn advances, and board, hands,
corner lists and lastPlayed are untouched. -/
theorem c10_nonquad_is_pass (s : Gamestate) (m : Mv) (h : m.length ≠ 4) :
    ∃ s2, s.update m = .ok s2 ∧ s2.passCount = s.passCount + 1 ∧
      s2.turn = advanceTurn s.turn ∧ s2.board = s.board ∧
      s2.blue = s.blue ∧ s2.yellow = s.yellow ∧ s2.red = s.red ∧
      s2.green = s.green ∧ s2.bcorners = s.bcorners ∧
      s2.ycorners = s.ycorners ∧ s2.rcorners = s.rcorners ∧
      s2.gcorners = s.gcorners ∧ s2.lastPlayed = s.lastPlayed := by
  refine ⟨passState s, ?_, rfl, rfl, rfl, rfl, rfl, rfl, rfl, rfl, rfl, rfl,
    rfl, rfl⟩
  unfold Gamestate.update
  rw [if_pos h]

/-- Witness for C10: the empty tuple passed to the initial state. -/
theorem c10_nonquad_is_pass_witness :
    ∃ s2, initState.update [] = .ok s2 ∧
      s2.passCount = initState.passCount + 1 ∧
      s2.turn = advanceTurn initState.turn ∧ s2.board = initState.board ∧
      s2.blue = initState.blue ∧ s2.yellow = initState.yellow ∧
      s2.red = initState.red ∧ s2.green = initState.green ∧
      s2.bcorners = initState.bcorners ∧ s2.ycorners = initState.ycorners ∧
      s2.rcorners = initState.rcorners ∧ s2.gcorners = initState.gcorners ∧
      s2.lastPlayed = initState.lastPlayed :=
  c10_nonquad_is_pass initState [] (by decide)

/-- Claim C7: whenever update returns False (a rejected placement — piece
not in hand, or failed moveCheck), the game state is exactly as before:
board, all four hands, all four corner lists, turn, passCount, lastPlayed. -/
theorem c7_reject_preserves_state (s : Gamestate) (m : Mv) (s2 : Gamestate)
    (h : s.update m = .rejected s2) :
    s2 = s ∧ s2.board = s.board ∧ s2.blue = s.blue ∧ s2.yellow = s.yellow ∧
    s2.red = s.red ∧ s2.green = s.green ∧ s2.bcorners = s.bcorners ∧
    s2.ycorners = s.ycorners ∧ s2.rcorners = s.rcorners ∧
    s2.gcorners = s.gcorners ∧ s2.turn = s.turn ∧
    s2.passCount = s.passCount ∧ s2.lastPlayed = s.lastPlayed := by
  have he : s2 = s := by
    unfold Gamestate.update at h
    by_cases hl : m.length ≠ 4
    · rw [if_pos hl] at h
      exact UpdResult.noConfusion h
    · rw [if_neg hl] at h
      split at h
      · rename_i name code mx my
        unfold updatePlace at h
        split at h
        · exact UpdResult.noConfusion h
        · split at h
          · injection h with h2
            exact h2.symm
          · split at h
            · exact UpdResult.noConfusion h
            · split at h
              · injection h with h2
                exact h2.symm
              · exact UpdResult.noConfusion h
      · exact UpdResult.noConfusion h
  subst he
  exact ⟨rfl, rfl, rfl, rfl, rfl, rfl, rfl, rfl, rfl, rfl, rfl, rfl, rfl⟩

/-- Witness for C7: the One piece at (5,5) on the fresh board has no
corner pairing and is rejected with the state unchanged. -/
theorem c7_reject_preserves_state_witness :
    initState = initState ∧ initState.board = initState.board ∧
    initState.blue = initState.blue ∧ initState.yellow = initState.yellow ∧
    initState.red = initState.red ∧ initState.green = initState.green ∧
    initState.bcorners = initState.bcorners ∧
    initState.ycorners = initState.ycorners ∧
    initState.rcorners = initState.rcorners ∧
    initState.gcorners = initState.gcorners ∧
    initState.turn = initState.turn ∧
    initState.passCount = initState.passCount ∧
    initState.lastPlayed = initState.lastPlayed :=
  c7_reject_preserves_state initState (mkMv "One" 0 5 5) initState rfl

/-- Claim C2 (refuting evaluation): flipping X once from its initial
orientation yields orientation code 1 with a cell set equal to the
orientation-0 cell set up to translation, yet reduceOrientation (which has
no case for pieces with hasDistinct90 false) leaves code 1 in place, so
the two congruent codes do not reduce to the same code. -/
theorem c2_X_flip_not_reduced :
    ((kindPiece .X).flipH).orientation = 1 ∧
    (kindPiece .X).orientation = 0 ∧
    shapeCongrB ((kindPiece .X).flipH).shape (kindPiece .X).shape = true ∧
    Piece.reduceOrientation ((kindPiece .X).flipH) = (kindPiece .X).flipH := by
  decide

/-- Claim C5: the enumeration visits exactly the orbit-size-formula number
of orientations for every kind (with the named examples), and those
orientations are pairwise non-congruent for every kind except W — whose
chiral flag is set although the W pentomino is mirror-symmetric, so its
flipped orientations duplicate rotations (entries 1 and 5 of its
enumeration have translation-equal cell sets under distinct codes). -/
theorem c5_orbit_counts_and_W_duplicate :
    (∀ k : PieceKind, (enumPieces k).length = specOrbitSize (kindPiece k)) ∧
    ([PieceKind.F, .I, .L, .N, .P, .T, .U, .V, .X, .Y, .Z, .I4, .L4, .N4,
        .O, .T4, .I3, .V3, .Two, .One].all
      (fun k => pairwiseNonCongrB (enumPieces k)) = true) ∧
    (enumPieces .O).length = 1 ∧ (enumPieces .I4).length = 2 ∧
    (enumPieces .T).length = 4 ∧ (enumPieces .F).length = 8 ∧
    (enumPieces .X).length = 1 ∧ (enumPieces .W).length = 8 ∧
    shapeCongrB ((enumPieces .W).getD 1 (kindPiece .W)).shape
      ((enumPieces .W).getD 5 (kindPiece .W)).shape = true ∧
    ((enumPieces .W).getD 1 (kindPiece .W)).orientation ≠
      ((enumPieces .W).getD 5 (kindPiece .W)).orientation := by
  decide

/-- Claim C6 (refuting evaluation): setOrientation on the X piece with
target code 2 never terminates — the flip bits agree so no flip happens,
and rotate(1) leaves X (hasDistinct90 false) completely unchanged, so the
while loop can never reach 2 from 0; in particular it does not finish
within the one flip and three rotations the claim allows. -/
theorem c6_X_target2_diverges :
    (kindPiece .X).setOrientation 2 = none ∧
    (kindPiece .X).rotate 1 = kindPiece .X ∧
    (kindPiece .X).orientation = 0 := by
  decide

/-- Claim C6, amended: for every kind, from any orientation state the
enumeration reaches and towards any orientation code the enumeration
produces, setOrientation terminates with at most one flip (by
construction) and at most three rotations and lands exactly on the target
code. -/
theorem c6_setOrientation_valid_targets :
    ∀ k : PieceKind, ∀ p ∈ enumPieces k, ∀ q ∈ enumPieces k,
      setOrientOK p q = true := by
  decide

/-- Witness for the amended C6: the F piece, from its initial state to its
first rotation's code. -/
theorem c6_setOrientation_valid_targets_witness :
    setOrientOK (kindPiece .F) ((kindPiece .F).rotate 1) = true :=
  c6_setOrientation_valid_targets .F (kindPiece .F) (by decide)
    ((kindPiece .F).rotate 1) (by decide)

/-! ### Bounding-box lemmas -/

theorem foldl_min_le_init (l : List Int) (a : Int) : l.foldl min a ≤ a := by
  induction l generalizing a with
  | nil => exact le_refl a
  | cons x t ih => exact le_trans (ih (min a x)) (min_le_left a x)

theorem foldl_min_le_mem (l : List Int) (a : Int) :
    ∀ x ∈ l, l.foldl min a ≤ x := by
  induction l generalizing a with
  | nil => intro x hx; cases hx
  | cons y t ih =>
    intro x hx
    rcases List.mem_cons.mp hx with h | h
    · subst h
      exact le_trans (foldl_min_le_init t (min a x)) (min_le_right a x)
    · exact ih (min a y) x h

theorem le_foldl_min (l : List Int) (a b : Int) (h1 : b ≤ a)
    (h2 : ∀ x ∈ l, b ≤ x) : b ≤ l.foldl min a := by
  induction l generalizing a with
  | nil => exact h1
  | cons y t ih =>
    exact ih (min a y) (le_min h1 (h2 y (List.mem_cons_self y t)))
      (fun x hx => h2 x (List.mem_cons_of_mem y hx))

theorem foldl_min_attained (l : List Int) (a : Int) :
    l.foldl min a = a ∨ l.foldl min a ∈ l := by
  induction l generalizing a with
  | nil => exact Or.inl rfl
  | cons y t ih =>
    rcases ih (min a y) with h | h
    · rcases min_choice a y with hm | hm
      · exact Or.inl (by rw [List.foldl_cons, h, hm])
      · exact Or.inr (by rw [List.foldl_cons, h, hm]; exact List.mem_cons_self y t)
    · exact Or.inr (List.mem_cons_of_mem y h)

theorem findExtremes_xmin_le (l : List Pt) (c : Pt) (hc : c ∈ l) :
    (findExtremes l).1 ≤ c.1 := by
  cases l with
  | nil => cases hc
  | cons a t =>
    show (t.map Prod.fst).foldl min a.1 ≤ c.1
    rcases List.mem_cons.mp hc with h | h
    · subst h; exact foldl_min_le_init _ _
    · exact foldl_min_le_mem _ _ c.1 (List.mem_map_of_mem Prod.fst h)

theorem findExtremes_ymin_le (l : List Pt) (c : Pt) (hc : c ∈ l) :
    (findExtremes l).2.2.1 ≤ c.2 := by
  cases l with
  | nil => cases hc
  | cons a t =>
    show (t.map Prod.snd).foldl min a.2 ≤ c.2
    rcases List.mem_cons.mp hc with h | h
    · subst h; exact foldl_min_le_init _ _
    · exact foldl_min_le_mem _ _ c.2 (List.mem_map_of_mem Prod.snd h)

theorem le_findExtremes_xmin (l : List Pt) (b : Int) (hne : l ≠ [])
    (h : ∀ c ∈ l, b ≤ c.1) : b ≤ (findExtremes l).1 := by
  cases l with
  | nil => exact absurd rfl hne
  | cons a t =>
    show b ≤ (t.map Prod.fst).foldl min a.1
    refine le_foldl_min _ _ _ (h a (List.mem_cons_self a t)) ?_
    intro x hx
    obtain ⟨c, hc, hcx⟩ := List.mem_map.mp hx
    exact hcx ▸ h c (List.mem_cons_of_mem a hc)

theorem le_findExtremes_ymin (l : List Pt) (b : Int) (hne : l ≠ [])
    (h : ∀ c ∈ l, b ≤ c.2) : b ≤ (findExtremes l).2.2.1 := by
  cases l with
  | nil => exact absurd rfl hne
  | cons a t =>
    show b ≤ (t.map Prod.snd).foldl min a.2
    refine le_foldl_min _ _ _ (h a (List.mem_cons_self a t)) ?_
    intro x hx
    obtain ⟨c, hc, hcx⟩ := List.mem_map.mp hx
    exact hcx ▸ h c (List.mem_cons_of_mem a hc)

theorem findExtremes_xmin_attained (l : List Pt) (hne : l ≠ []) :
    ∃ c ∈ l, c.1 = (findExtremes l).1 := by
  cases l with
  | nil => exact absurd rfl hne
  | cons a t =>
    rcases foldl_min_attained (t.map Prod.fst) a.1 with h | h
    · exact ⟨a, List.mem_cons_self a t, h.symm⟩
    · obtain ⟨c, hc, hcx⟩ := List.mem_map.mp h
      exact ⟨c, List.mem_cons_of_mem a hc, hcx⟩

theorem findExtremes_ymin_attained (l : List Pt) (hne : l ≠ []) :
    ∃ c ∈ l, c.2 = (findExtremes l).2.2.1 := by
  cases l with
  | nil => exact absurd rfl hne
  | cons a t =>
    rcases foldl_min_attained (t.map Prod.snd) a.2 with h | h
    · exact ⟨a, List.mem_cons_self a t, h.symm⟩
    · obtain ⟨c, hc, hcx⟩ := List.mem_map.mp h
      exact ⟨c, List.mem_cons_of_mem a hc, hcx⟩

theorem findExtremes_translate_x (l : List Pt) (hne : l ≠ []) (dx dy : Int) :
    (findExtremes (l.map (translatePt dx dy))).1 = (findExtremes l).1 + dx := by
  have hne2 : l.map (translatePt dx dy) ≠ [] := by
    intro h; exact hne (List.map_eq_nil_iff.mp h)
  refine le_antisymm ?_ ?_
  · obtain ⟨c, hc, hcx⟩ := findExtremes_xmin_attained l hne
    have : translatePt dx dy c ∈ l.map (translatePt dx dy) :=
      List.mem_map_of_mem _ hc
    have h2 := findExtremes_xmin_le _ _ this
    simpa [translatePt, hcx] using h2
  · refine le_findExtremes_xmin _ _ hne2 ?_
    intro c hc
    obtain ⟨c0, hc0, hc0x⟩ := List.mem_map.mp hc
    have := findExtremes_xmin_le l c0 hc0
    subst hc0x
    simpa [translatePt] using by omega

theorem findExtremes_translate_y (l : List Pt) (hne : l ≠ []) (dx dy : Int) :
    (findExtremes (l.map (translatePt dx dy))).2.2.1 =
      (findExtremes l).2.2.1 + dy := by
  have hne2 : l.map (translatePt dx dy) ≠ [] := by
    intro h; exact hne (List.map_eq_nil_iff.mp h)
  refine le_antisymm ?_ ?_
  · obtain ⟨c, hc, hcy⟩ := findExtremes_ymin_attained l hne
    have : translatePt dx dy c ∈ l.map (translatePt dx dy) :=
      List.mem_map_of_mem _ hc
    have h2 := findExtremes_ymin_le _ _ this
    simpa [translatePt, hcy] using h2
  · refine le_findExtremes_ymin _ _ hne2 ?_
    intro c hc
    obtain ⟨c0, hc0, hc0y⟩ := List.mem_map.mp hc
    have := findExtremes_ymin_le l c0 hc0
    subst hc0y
    simpa [translatePt] using by omega

theorem swapCrn_swapCrn (c : Crn) : swapCrn (swapCrn c) = c := rfl

/-! ### setOrientation output characterization -/

theorem rotLoop_rotN (t : Int) :
    ∀ (fuel : Nat) (p : Piece) (cnt : Nat) (q : Piece) (c2 : Nat),
      Piece.rotLoop p t fuel cnt = some (q, c2) → ∃ i, i ≤ fuel ∧ q = rotN i p := by
  intro fuel
  induction fuel with
  | zero =>
    intro p cnt q c2 h
    unfold Piece.rotLoop at h
    by_cases he : (p.orientation : Int) = t
    · rw [if_pos he] at h
      injection h with h2
      exact ⟨0, le_refl 0, (congrArg Prod.fst h2).symm⟩
    · rw [if_neg he] at h
      exact Option.noConfusion h
  | succ n ih =>
    intro p cnt q c2 h
    unfold Piece.rotLoop at h
    by_cases he : (p.orientation : Int) = t
    · rw [if_pos he] at h
      injection h with h2
      exact ⟨0, Nat.zero_le _, (congrArg Prod.fst h2).symm⟩
    · rw [if_neg he] at h
      obtain ⟨i, hle, hq⟩ := ih (p.rotate 1) (cnt + 1) q c2 h
      exact ⟨i + 1, Nat.succ_le_succ hle, hq⟩

theorem setOrientation_mem_cand (k : PieceKind) (t : Int) (pr : Piece × Nat)
    (h : (kindPiece k).setOrientation t = some pr) : pr.1 ∈ reconCand k := by
  simp only [Piece.setOrientation] at h
  by_cases hf : intBit0 ((kindPiece k).orientation : Int) ≠ intBit0 t
  · rw [if_pos hf] at h
    split at h
    · exact Option.noConfusion h
    · rename_i q cnt heq
      injection h with h2
      obtain ⟨i, hle, hq⟩ := rotLoop_rotN t 4 _ 0 q cnt heq
      have : pr.1 = (rotN i ((kindPiece k).flipH)).reduceOrientation := by
        rw [← h2, hq]
      rw [this]
      unfold reconCand
      refine List.mem_append_right _ ?_
      exact List.mem_map_of_mem _ (List.mem_range.mpr (Nat.lt_succ_of_le hle))
  · rw [if_neg hf] at h
    split at h
    · exact Option.noConfusion h
    · rename_i q cnt heq
      injection h with h2
      obtain ⟨i, hle, hq⟩ := rotLoop_rotN t 4 _ 0 q cnt heq
      have : pr.1 = (rotN i (kindPiece k)).reduceOrientation := by
        rw [← h2, hq]
      rw [this]
      unfold reconCand
      refine List.mem_append_left _ ?_
      exact List.mem_map_of_mem _ (List.mem_range.mpr (Nat.lt_succ_of_le hle))

/-- Finite facts about every piece state setOrientation can return, for
every kind: non-empty duplicate-free shape, corner interiors on the
shape, and (for the first-move claim) the corner towards (-1,-1) present
whenever the normalized shape covers (0,0). -/
theorem reconCand_facts :
    ∀ k : PieceKind, ∀ p ∈ reconCand k,
      p.shape ≠ [] ∧ p.shape.Nodup ∧ cornersInShape p ∧
      (((0, 0) : Pt) ∈ (placedPiece p 0 0).shape →
        (⟨(0, 0), (-1, -1)⟩ : Crn) ∈ (placedPiece p 0 0).corners) := by
  decide

theorem cornersInShape_translate (p : Piece) (dx dy : Int)
    (h : cornersInShape p) : cornersInShape (p.translate dx dy) := by
  intro cr hcr
  obtain ⟨cr0, hcr0, hmap⟩ := List.mem_map.mp hcr
  have := h cr0 hcr0
  subst hmap
  exact List.mem_map_of_mem _ this

/-! ### The first placement on a fresh board (C1) -/

theorem initState_conflicts_false (p : Piece)
    (h : ∀ c ∈ p.shape, OnBoard c) : initState.moveConflicts p = false := by
  simp only [Gamestate.moveConflicts, List.any_eq_false, Bool.not_eq_true]
  intro c hc
  obtain ⟨h1, h2, h3, h4⟩ := h c hc
  have hcond : ¬ (c.1 < 0 ∨ c.2 < 0 ∨ boardsize ≤ c.1 ∨ boardsize ≤ c.2) := by
    push_neg
    exact ⟨by omega, by omega, by omega, by omega⟩
  show cellConflict initState.board initState.turn c = false
  unfold cellConflict
  rw [if_neg hcond]
  have hb : initState.board c = 0 := rfl
  rw [if_neg (by rw [hb]; exact fun hne => hne rfl)]
  simp [initState, initBoard]

theorem update_mkMv (s : Gamestate) (n : String) (c x y : Int) :
    s.update (mkMv n c x y) = updatePlace s n c x y := by
  unfold Gamestate.update
  rw [if_neg (by simp [mkMv])]
  exact rfl

theorem nameToKind_kindName : ∀ k : PieceKind, nameToKind (kindName k) = some k := by
  decide

theorem updatePlace_reduce (s : Gamestate) (k : PieceKind) (code mx my : Int)
    (pr : Piece × Nat) (hset : (kindPiece k).setOrientation code = some pr)
    (hhand : s.getHand s.turn k = true) :
    updatePlace s (kindName k) code mx my =
      if s.moveCheck (placedPiece pr.1 mx my) = false then .rejected s
      else .ok (applyPlace s (kindName k) k (placedPiece pr.1 mx my)) := by
  have h1 : updatePlace s (kindName k) code mx my =
      (if s.getHand s.turn k = false then UpdResult.rejected s
       else
         match (kindPiece k).setOrientation code with
         | none => UpdResult.hang
         | some pr2 =>
           if s.moveCheck (placedPiece pr2.1 mx my) = false then
             UpdResult.rejected s
           else
             UpdResult.ok (applyPlace s (kindName k) k (placedPiece pr2.1 mx my))) := by
    unfold updatePlace
    rw [nameToKind_kindName k]
  rw [h1, hhand, if_neg (fun h => Bool.noConfusion h), hset]

theorem moveCheck_init (p : Piece) (hcf : initState.moveConflicts p = false) :
    (initState.moveCheck p = true ↔ (⟨(0, 0), (-1, -1)⟩ : Crn) ∈ p.corners) := by
  simp only [Gamestate.moveCheck, splitCornerArray]
  have hcor : initState.getCorners initState.turn =
      [⟨((-1 : Int), (-1 : Int)), ((0 : Int), (0 : Int))⟩] := rfl
  rw [hcor, hcf]
  constructor
  · intro h
    by_cases hd : (p.corners.any fun cur =>
        [(⟨((-1 : Int), (-1 : Int)), ((0 : Int), (0 : Int))⟩ : Crn)].any
          fun bc => decide (bc = swapCrn cur)) = false
    · rw [if_pos hd] at h
      exact Bool.noConfusion h
    · have hd2 := (Bool.not_eq_false _).mp hd
      obtain ⟨cur, hcur, hmatch⟩ := List.any_eq_true.mp hd2
      simp only [List.any_cons, List.any_nil, Bool.or_false,
        decide_eq_true_eq] at hmatch
      have : cur = ⟨(0, 0), (-1, -1)⟩ := by
        have := congrArg swapCrn hmatch
        rw [swapCrn_swapCrn] at this
        exact this.symm ▸ rfl
      exact this ▸ hcur
  · intro h
    have hd : (p.corners.any fun cur =>
        [(⟨((-1 : Int), (-1 : Int)), ((0 : Int), (0 : Int))⟩ : Crn)].any
          fun bc => decide (bc = swapCrn cur)) = true := by
      refine List.any_eq_true.mpr ⟨⟨(0, 0), (-1, -1)⟩, h, ?_⟩
      simp [swapCrn]
    rw [if_neg (by rw [hd]; exact fun h2 => Bool.noConfusion h2)]
    rfl

theorem placedPiece_shape (q : Piece) (x y : Int) :
    (placedPiece q x y).shape =
      q.shape.map (translatePt (x - (findExtremes q.shape).1)
        (y - (findExtremes q.shape).2.2.1)) := rfl

theorem anchor_eq_zero (q : Piece) (x y : Int) (hne : q.shape ≠ [])
    (hin : ∀ c ∈ (placedPiece q x y).shape, OnBoard c)
    (hz : ((0, 0) : Pt) ∈ (placedPiece q x y).shape) : x = 0 ∧ y = 0 := by
  have hxmin := findExtremes_translate_x q.shape hne
    (x - (findExtremes q.shape).1) (y - (findExtremes q.shape).2.2.1)
  have hymin := findExtremes_translate_y q.shape hne
    (x - (findExtremes q.shape).1) (y - (findExtremes q.shape).2.2.1)
  rw [← placedPiece_shape] at hxmin hymin
  have hne2 : (placedPiece q x y).shape ≠ [] := by
    rw [placedPiece_shape]
    intro h
    exact hne (List.map_eq_nil_iff.mp h)
  have hle1 : (findExtremes (placedPiece q x y).shape).1 ≤ 0 :=
    findExtremes_xmin_le _ (0, 0) hz
  have hle2 : (findExtremes (placedPiece q x y).shape).2.2.1 ≤ 0 :=
    findExtremes_ymin_le _ (0, 0) hz
  have hge1 : (0 : Int) ≤ (findExtremes (placedPiece q x y).shape).1 :=
    le_findExtremes_xmin _ 0 hne2 (fun c hc => (hin c hc).1)
  have hge2 : (0 : Int) ≤ (findExtremes (placedPiece q x y).shape).2.2.1 :=
    le_findExtremes_ymin _ 0 hne2 (fun c hc => (hin c hc).2.2.1)
  constructor
  · omega
  · omega

/-- Claim C1: on a fresh game state, a first placement by the player to
move (an in-bounds placement of a held piece at an orientation update can
build) is accepted exactly when some cell of the placed piece touches the
player's designated starting corner diagonally — i.e. is diagonally
adjacent to the synthetic start cell (-1,-1) just outside board corner
(0,0), which for an on-board placement means covering (0,0).  Moreover a
placement orthogonally adjacent to the starting board corner but not
touching it diagonally (the domino at anchor (1,0)) is rejected. -/
theorem c1_first_placement :
    (∀ (k : PieceKind) (code x y : Int) (pr : Piece × Nat),
        (kindPiece k).setOrientation code = some pr →
        (∀ c ∈ (placedPiece pr.1 x y).shape, OnBoard c) →
        ((initState.update (mkMv (kindName k) code x y)).isOk = true ↔
          ∃ c ∈ (placedPiece pr.1 x y).shape, DiagAdj c (startDiagCell 1))) ∧
    (initState.update (mkMv "Two" 0 1 0)).isOk = false ∧
    (∃ c ∈ (placedPiece (kindPiece .Two) 1 0).shape, OrthAdj c (0, 0)) ∧
    (∀ c ∈ (placedPiece (kindPiece .Two) 1 0).shape,
      ¬ DiagAdj c (startDiagCell 1)) := by
  refine ⟨?_, by decide, by decide, by decide⟩
  intro k code x y pr hset hin
  have hcand := setOrientation_mem_cand k code pr hset
  obtain ⟨hne, hnd, hcis, hcell⟩ := reconCand_facts k pr.1 hcand
  have hhand : initState.getHand initState.turn k = true := rfl
  have hcf : initState.moveConflicts (placedPiece pr.1 x y) = false :=
    initState_conflicts_false _ hin
  have hred := updatePlace_reduce initState k code x y pr hset hhand
  rw [update_mkMv, hred]
  have hmc := moveCheck_init (placedPiece pr.1 x y) hcf
  constructor
  · intro hok
    have hck : initState.moveCheck (placedPiece pr.1 x y) = true := by
      by_cases hval : initState.moveCheck (placedPiece pr.1 x y) = false
      · rw [if_pos hval] at hok
        exact Bool.noConfusion hok
      · exact (Bool.not_eq_false _).mp hval
    have hcorner := hmc.mp hck
    have hint : ((0, 0) : Pt) ∈ (placedPiece pr.1 x y).shape := by
      have h5 := cornersInShape_translate pr.1
        (x - (findExtremes pr.1.shape).1)
        (y - (findExtremes pr.1.shape).2.2.1) hcis
      exact h5 _ hcorner
    exact ⟨(0, 0), hint, by decide⟩
  · intro ⟨c, hcmem, hcdiag⟩
    have hcb := hin c hcmem
    have hc0 : c = (0, 0) := by
      obtain ⟨hd1, hd2⟩ := hcdiag
      obtain ⟨hb1, hb2, hb3, hb4⟩ := hcb
      have he1 : startDiagCell 1 = ((-1 : Int), (-1 : Int)) := rfl
      rw [he1] at hd1 hd2
      simp only [boardsize] at hb2 hb4
      obtain ⟨cx, cy⟩ := c
      simp only at hd1 hd2 hb1 hb2 hb3 hb4
      have hcx : cx = 0 := by omega
      have hcy : cy = 0 := by omega
      subst hcx
      subst hcy
      rfl
    subst hc0
    obtain ⟨hx0, hy0⟩ := anchor_eq_zero pr.1 x y hne hin hcmem
    subst hx0
    subst hy0
    have hcorner := hcell hcmem
    have hck := hmc.mpr hcorner
    rw [if_neg (by rw [hck]; exact fun h2 => Bool.noConfusion h2)]
    rfl

/-- Witness for C1: the monomino placed on the corner cell itself. -/
theorem c1_first_placement_witness :
    (initState.update (mkMv (kindName .One) 0 0 0)).isOk = true ↔
      ∃ c ∈ (placedPiece (kindPiece .One, 0).1 0 0).shape,
        DiagAdj c (startDiagCell 1) :=
  c1_first_placement.1 .One 0 0 0 ((kindPiece .One), 0) (by decide) (by decide)

/-! ### canMove is the short-circuiting variant of listMoves (C4) -/

theorem fpmBCs_extends (s : Gamestate) (i : Nat) :
    ∀ (bcs : List Crn) (p : Piece) (xm ym : Int) (acc : List Mv),
      ∃ extra, (fpmBCs s i bcs p xm ym acc).1 = acc ++ extra := by
  intro bcs
  induction bcs with
  | nil => intro p xm ym acc; exact ⟨[], by simp [fpmBCs]⟩
  | cons bc rest ih =>
    intro p xm ym acc
    simp only [fpmBCs]
    split
    · split
      · obtain ⟨e, he⟩ := ih _ _ _ (acc ++ [_])
        exact ⟨_, by rw [he, List.append_assoc]⟩
      · exact ih _ _ _ acc
    · exact ih _ _ _ acc

theorem fpmBCs_extends2 (s : Gamestate) (i : Nat) (bcs : List Crn) (p : Piece)
    (xm ym : Int) (acc : List Mv) (m0 : Mv) :
    ∃ extra, (fpmBCs s i bcs p xm ym (acc ++ [m0])).1 = acc ++ extra ∧
      extra ≠ [] := by
  obtain ⟨e, he⟩ := fpmBCs_extends s i bcs p xm ym (acc ++ [m0])
  exact ⟨[m0] ++ e, by rw [he, List.append_assoc], by simp⟩

theorem cfpmBCs_fpmBCs (s : Gamestate) (i : Nat) :
    ∀ (bcs : List Crn) (p : Piece) (xm ym : Int) (acc : List Mv),
      ((cfpmBCs s i bcs p xm ym).1 = true →
        ∃ extra, (fpmBCs s i bcs p xm ym acc).1 = acc ++ extra ∧ extra ≠ []) ∧
      ((cfpmBCs s i bcs p xm ym).1 = false →
        (fpmBCs s i bcs p xm ym acc).1 = acc ∧
        (fpmBCs s i bcs p xm ym acc).2 = (cfpmBCs s i bcs p xm ym).2) := by
  intro bcs
  induction bcs with
  | nil =>
    intro p xm ym acc
    refine ⟨fun h => Bool.noConfusion h, fun _ => ⟨rfl, rfl⟩⟩
  | cons bc rest ih =>
    intro p xm ym acc
    simp only [fpmBCs, cfpmBCs]
    split
    · split
      · -- pairing matches, no conflict: cfpm returns true, fpm appends
        refine ⟨fun _ => ?_, fun h => Bool.noConfusion h⟩
        exact fpmBCs_extends2 s i rest _ _ _ acc _
      · -- pairing matches but conflicts: both recurse on the moved piece
        exact ih _ _ _ acc
    · exact ih _ _ _ acc

theorem fpmIdx_extends (s : Gamestate) :
    ∀ (idxs : List Nat) (p : Piece) (xm ym : Int) (acc : List Mv),
      ∃ extra, (fpmIdx s idxs p xm ym acc).1 = acc ++ extra := by
  intro idxs
  induction idxs with
  | nil => intro p xm ym acc; exact ⟨[], by simp [fpmIdx]⟩
  | cons i rest ih =>
    intro p xm ym acc
    simp only [fpmIdx]
    obtain ⟨e1, he1⟩ := fpmBCs_extends s i (s.getCorners s.turn) p xm ym acc
    obtain ⟨e2, he2⟩ := ih (fpmBCs s i (s.getCorners s.turn) p xm ym acc).2.1
      (fpmBCs s i (s.getCorners s.turn) p xm ym acc).2.2.1
      (fpmBCs s i (s.getCorners s.turn) p xm ym acc).2.2.2
      (fpmBCs s i (s.getCorners s.turn) p xm ym acc).1
    exact ⟨e1 ++ e2, by rw [he2, he1, List.append_assoc]⟩

theorem cfpmIdx_fpmIdx (s : Gamestate) :
    ∀ (idxs : List Nat) (p : Piece) (xm ym : Int) (acc : List Mv),
      ((cfpmIdx s idxs p xm ym).1 = true →
        ∃ extra, (fpmIdx s idxs p xm ym acc).1 = acc ++ extra ∧ extra ≠ []) ∧
      ((cfpmIdx s idxs p xm ym).1 = false →
        (fpmIdx s idxs p xm ym acc).1 = acc ∧
        (fpmIdx s idxs p xm ym acc).2 = (cfpmIdx s idxs p xm ym).2) := by
  intro idxs
  induction idxs with
  | nil =>
    intro p xm ym acc
    exact ⟨fun h => Bool.noConfusion h, fun _ => ⟨rfl, rfl⟩⟩
  | cons i rest ih =>
    intro p xm ym acc
    simp only [fpmIdx, cfpmIdx]
    by_cases hr : (cfpmBCs s i (s.getCorners s.turn) p xm ym).1 = true
    · rw [if_pos hr]
      refine ⟨fun _ => ?_, fun h => by rw [h] at hr; exact Bool.noConfusion hr⟩
      obtain ⟨e1, he1, hne1⟩ :=
        (cfpmBCs_fpmBCs s i (s.getCorners s.turn) p xm ym acc).1 hr
      obtain ⟨e2, he2⟩ := fpmIdx_extends s rest
        (fpmBCs s i (s.getCorners s.turn) p xm ym acc).2.1
        (fpmBCs s i (s.getCorners s.turn) p xm ym acc).2.2.1
        (fpmBCs s i (s.getCorners s.turn) p xm ym acc).2.2.2
        (fpmBCs s i (s.getCorners s.turn) p xm ym acc).1
      refine ⟨e1 ++ e2, by rw [he2, he1, List.append_assoc], ?_⟩
      intro hc
      exact hne1 (List.append_eq_nil.mp hc).1
    · rw [if_neg hr]
      have hfalse : (cfpmBCs s i (s.getCorners s.turn) p xm ym).1 = false :=
        Bool.eq_false_iff.mpr hr
      obtain ⟨hacc, hst⟩ :=
        (cfpmBCs_fpmBCs s i (s.getCorners s.turn) p xm ym acc).2 hfalse
      have ih2 := ih (cfpmBCs s i (s.getCorners s.turn) p xm ym).2.1
        (cfpmBCs s i (s.getCorners s.turn) p xm ym).2.2.1
        (cfpmBCs s i (s.getCorners s.turn) p xm ym).2.2.2
        acc
      rw [show (fpmBCs s i (s.getCorners s.turn) p xm ym acc).2.1 =
          (cfpmBCs s i (s.getCorners s.turn) p xm ym).2.1 from by rw [hst],
        show (fpmBCs s i (s.getCorners s.turn) p xm ym acc).2.2.1 =
          (cfpmBCs s i (s.getCorners s.turn) p xm ym).2.2.1 from by rw [hst],
        show (fpmBCs s i (s.getCorners s.turn) p xm ym acc).2.2.2 =
          (cfpmBCs s i (s.getCorners s.turn) p xm ym).2.2.2 from by rw [hst],
        hacc]
      exact ih2

theorem canFind_find (s : Gamestate) (p : Piece) :
    ((s.canFindPieceMoves p).1 = true ↔ (s.findPieceMoves p).1 ≠ []) ∧
    ((s.canFindPieceMoves p).1 = false →
      (s.findPieceMoves p).2 = (s.canFindPieceMoves p).2) := by
  have h := cfpmIdx_fpmIdx s (List.range (splitCornerArray p.corners).length) p
    (findExtremes p.shape).1 (findExtremes p.shape).2.2.1 []
  have e1 : (s.canFindPieceMoves p).1 =
      (cfpmIdx s (List.range (splitCornerArray p.corners).length) p
        (findExtremes p.shape).1 (findExtremes p.shape).2.2.1).1 := rfl
  have e2 : (s.findPieceMoves p).1 =
      (fpmIdx s (List.range (splitCornerArray p.corners).length) p
        (findExtremes p.shape).1 (findExtremes p.shape).2.2.1 []).1 := rfl
  have e3 : (s.findPieceMoves p).2 =
      (fpmIdx s (List.range (splitCornerArray p.corners).length) p
        (findExtremes p.shape).1 (findExtremes p.shape).2.2.1 []).2.1 := rfl
  have e4 : (s.canFindPieceMoves p).2 =
      (cfpmIdx s (List.range (splitCornerArray p.corners).length) p
        (findExtremes p.shape).1 (findExtremes p.shape).2.2.1).2.1 := rfl
  rw [e1, e2, e3, e4]
  constructor
  · constructor
    · intro ht
      obtain ⟨e, he, hne⟩ := h.1 ht
      rw [he, List.nil_append]
      exact hne
    · intro hne
      by_cases hval : (cfpmIdx s (List.range (splitCornerArray p.corners).length)
          p (findExtremes p.shape).1 (findExtremes p.shape).2.2.1).1 = true
      · exact hval
      · obtain ⟨hacc, _⟩ := h.2 (Bool.eq_false_iff.mpr hval)
        exact absurd hacc hne
  · intro hf
    obtain ⟨_, hst⟩ := h.2 hf
    rw [hst]

theorem runPiece_can (s : Gamestate) :
    ∀ (steps : List PieceStep) (p : Piece),
      (runPieceCan s steps p).1 = true ↔ (runPiece s steps p).1 ≠ [] := by
  intro steps
  induction steps with
  | nil =>
    intro p
    simp [runPiece, runPieceCan]
  | cons st rest ih =>
    intro p
    simp only [runPiece, runPieceCan]
    by_cases hr : (s.canFindPieceMoves (applyStep st p)).1 = true
    · rw [if_pos hr]
      have hne := (canFind_find s (applyStep st p)).1.mp hr
      constructor
      · intro _
        intro hc
        exact hne (List.append_eq_nil.mp hc).1
      · intro _; rfl
    · rw [if_neg hr]
      have hfalse : (s.canFindPieceMoves (applyStep st p)).1 = false :=
        Bool.eq_false_iff.mpr hr
      have hempty : (s.findPieceMoves (applyStep st p)).1 = [] := by
        by_cases he : (s.findPieceMoves (applyStep st p)).1 = []
        · exact he
        · exact absurd ((canFind_find s (applyStep st p)).1.mpr he) hr
      have hst := (canFind_find s (applyStep st p)).2 hfalse
      rw [hempty, List.nil_append, hst]
      exact ih _

theorem canMoveGo_listMovesGo (s : Gamestate) :
    ∀ pieces : List Piece,
      canMoveGo s pieces = true ↔ listMovesGo s pieces ≠ [] := by
  intro pieces
  induction pieces with
  | nil => simp [canMoveGo, listMovesGo]
  | cons p ps ih =>
    simp only [canMoveGo, listMovesGo]
    by_cases hr : (runPieceCan s (pieceSteps p) p).1 = true
    · rw [if_pos hr]
      have hne := (runPiece_can s (pieceSteps p) p).mp hr
      constructor
      · intro _ hc
        exact hne (List.append_eq_nil.mp hc).1
      · intro _; rfl
    · rw [if_neg hr]
      have hempty : (runPiece s (pieceSteps p) p).1 = [] := by
        by_cases he : (runPiece s (pieceSteps p) p).1 = []
        · exact he
        · exact absurd ((runPiece_can s (pieceSteps p) p).mpr he) hr
      rw [hempty, List.nil_append]
      exact ih

/-- Claim C4: canMove is the short-circuiting variant of listMoves — for
every game state it returns true exactly when listMoves is non-empty. -/
theorem c4_canMove_iff_listMoves (s : Gamestate) :
    s.canMove = true ↔ s.listMoves ≠ [] := by
  unfold Gamestate.canMove Gamestate.listMoves
  by_cases hg : handNonempty (s.getHand s.turn) = false ∨
      (s.getCorners s.turn).length = 0
  · rw [if_pos hg, if_pos hg]
    simp
  · rw [if_neg hg, if_neg hg]
    exact canMoveGo_listMovesGo s _

/-! ### listMoves emits only moves update accepts (C3) -/

theorem translate_name (p : Piece) (a b : Int) : (p.translate a b).name = p.name := rfl

theorem translate_orient (p : Piece) (a b : Int) :
    (p.translate a b).orientation = p.orientation := rfl

theorem translate_shape (p : Piece) (a b : Int) :
    (p.translate a b).shape = p.shape.map (translatePt a b) := rfl

theorem translate_corners (p : Piece) (a b : Int) :
    (p.translate a b).corners = p.corners.map (mapCrn (translatePt a b)) := rfl

theorem translatePt_comp (a b c d : Int) (x : Pt) :
    translatePt c d (translatePt a b x) = translatePt (a + c) (b + d) x := by
  obtain ⟨u, v⟩ := x
  simp only [translatePt, Prod.mk.injEq]
  constructor <;> ring_nf

theorem mapCrn_translate_comp (a b c d : Int) (cr : Crn) :
    mapCrn (translatePt c d) (mapCrn (translatePt a b) cr) =
      mapCrn (translatePt (a + c) (b + d)) cr := by
  obtain ⟨p0, p1⟩ := cr
  simp only [mapCrn, translatePt_comp]

theorem translateP_comp (p : Piece) (a b c d : Int) :
    (p.translate a b).translate c d = p.translate (a + c) (b + d) := by
  obtain ⟨nm, sh, co, f1, f2, f3, sz, o⟩ := p
  simp only [Piece.translate, List.map_map, Piece.mk.injEq, true_and, and_true]
  exact ⟨List.map_congr_left (fun x _ => translatePt_comp a b c d x),
    List.map_congr_left (fun cr _ => mapCrn_translate_comp a b c d cr)⟩

theorem translateP_zero (p : Piece) : p.translate 0 0 = p := by
  obtain ⟨nm, sh, co, f1, f2, f3, sz, o⟩ := p
  have h1 : ∀ x : Pt, translatePt 0 0 x = x := by
    intro ⟨u, v⟩; simp [translatePt]
  have h2 : ∀ cr : Crn, mapCrn (translatePt 0 0) cr = cr := by
    intro ⟨p0, p1⟩
    obtain ⟨u, v⟩ := p0
    obtain ⟨w, z⟩ := p1
    simp [mapCrn, translatePt]
  simp only [Piece.translate, Piece.mk.injEq, true_and, and_true]
  exact ⟨by rw [List.map_congr_left (fun x _ => h1 x), List.map_id'],
    by rw [List.map_congr_left (fun cr _ => h2 cr), List.map_id']⟩

theorem translate_shape_ne (p : Piece) (a b : Int) (h : p.shape ≠ []) :
    (p.translate a b).shape ≠ [] := by
  rw [translate_shape]
  intro h2
  exact h (List.map_eq_nil_iff.mp h2)

theorem translate_corners_length (p : Piece) (a b : Int) :
    (p.translate a b).corners.length = p.corners.length := by
  rw [translate_corners, List.length_map]

theorem emittedRel_translate (s : Gamestate) (q : Piece) (a b : Int) (m : Mv)
    (h : EmittedRel s (q.translate a b) m) : EmittedRel s q m := by
  obtain ⟨dx, dy, bc, hbc, hcmem, hconf, hform⟩ := h
  rw [translateP_comp] at hcmem hconf
  rw [translate_name, translate_orient] at hform
  refine ⟨a + dx, b + dy, bc, hbc, hcmem, hconf, ?_⟩
  rw [hform]
  have h2 : ((q.translate a b).translate dx dy).shape =
      (q.translate (a + dx) (b + dy)).shape := by rw [translateP_comp]
  rw [h2]

theorem rotate_translate_true (p : Piece) (a b : Int) (h : p.r90 = true) :
    (p.translate a b).rotate 1 = (p.rotate 1).translate b (-a) := by
  obtain ⟨nm, sh, co, f1, f2, f3, sz, o⟩ := p
  subst h
  rw [show (Piece.mk nm sh co true f2 f3 sz o).translate a b =
    Piece.mk nm (sh.map (translatePt a b)) (co.map (mapCrn (translatePt a b)))
      true f2 f3 sz o from rfl]
  rw [rotate_one_mk_true, rotate_one_mk_true]
  rw [show (Piece.mk nm (sh.map rot1Pt) (co.map (mapCrn rot1Pt)) true f2 f3 sz
      (rotOrientStep f2 f3 o)).translate b (-a) =
    Piece.mk nm ((sh.map rot1Pt).map (translatePt b (-a)))
      ((co.map (mapCrn rot1Pt)).map (mapCrn (translatePt b (-a))))
      true f2 f3 sz (rotOrientStep f2 f3 o) from rfl]
  simp only [List.map_map, Piece.mk.injEq, true_and, and_true]
  constructor
  · refine List.map_congr_left ?_
    intro x _
    obtain ⟨u, v⟩ := x
    simp only [Function.comp, rot1Pt, translatePt, Prod.mk.injEq]
    constructor <;> ring_nf
  · refine List.map_congr_left ?_
    intro cr _
    obtain ⟨⟨u0, v0⟩, ⟨u1, v1⟩⟩ := cr
    simp only [Function.comp, mapCrn, rot1Pt, translatePt, Crn.mk.injEq,
      Prod.mk.injEq]
    refine ⟨⟨by ring_nf, by ring_nf⟩, by ring_nf, by ring_nf⟩

theorem flipV_translate (p : Piece) (a b : Int) :
    (p.translate a b).flipV = p.flipV.translate a (-b) := by
  obtain ⟨nm, sh, co, f1, f2, f3, sz, o⟩ := p
  simp only [Piece.flipV, Piece.translate, Piece.reduceOrientation,
    List.map_map, Piece.mk.injEq, true_and, and_true]
  constructor
  · refine List.map_congr_left ?_
    intro x _
    obtain ⟨u, v⟩ := x
    simp only [Function.comp, vflipPt, translatePt, Prod.mk.injEq]
    constructor <;> ring_nf
  · refine List.map_congr_left ?_
    intro cr _
    obtain ⟨⟨u0, v0⟩, ⟨u1, v1⟩⟩ := cr
    simp only [Function.comp, mapCrn, vflipPt, translatePt, Crn.mk.injEq,
      Prod.mk.injEq]
    refine ⟨⟨by ring_nf, by ring_nf⟩, by ring_nf, by ring_nf⟩

theorem rotate_no_r90 (p : Piece) (h : p.r90 = false) : p.rotate 1 = p := by
  obtain ⟨nm, sh, co, f1, f2, f3, sz, o⟩ := p
  subst h
  exact rotate_one_mk_false nm sh co f2 f3 sz o

theorem applyStep_translate (st : PieceStep) (p : Piece) (a b : Int) :
    ∃ a2 b2, applyStep st (p.translate a b) = (applyStep st p).translate a2 b2 := by
  cases st with
  | start => exact ⟨a, b, rfl⟩
  | rot =>
    by_cases hr : p.r90 = true
    · exact ⟨b, -a, rotate_translate_true p a b hr⟩
    · have hf : p.r90 = false := Bool.eq_false_iff.mpr hr
      have h1 : (p.translate a b).r90 = false := hf
      refine ⟨a, b, ?_⟩
      show (p.translate a b).rotate 1 = (p.rotate 1).translate a b
      rw [rotate_no_r90 _ h1, rotate_no_r90 _ hf]
  | flip => exact ⟨a, -b, flipV_translate p a b⟩

theorem enumPiecesAux_translate :
    ∀ (steps : List PieceStep) (p : Piece) (a b : Int) (q2 : Piece),
      q2 ∈ enumPiecesAux steps (p.translate a b) →
      ∃ q ∈ enumPiecesAux steps p, ∃ a2 b2, q2 = q.translate a2 b2 := by
  intro steps
  induction steps with
  | nil => intro p a b q2 h; cases h
  | cons st rest ih =>
    intro p a b q2 h
    obtain ⟨a2, b2, hst⟩ := applyStep_translate st p a b
    rw [enumPiecesAux, hst] at h
    rcases List.mem_cons.mp h with h1 | h1
    · exact ⟨applyStep st p, List.mem_cons_self _ _, a2, b2, h1⟩
    · obtain ⟨q, hq, a3, b3, hq3⟩ := ih (applyStep st p) a2 b2 q2 h1
      exact ⟨q, List.mem_cons_of_mem _ hq, a3, b3, hq3⟩

theorem fpmBCs_state (s : Gamestate) (i : Nat) :
    ∀ (bcs : List Crn) (p : Piece) (xm ym : Int) (acc : List Mv),
      ∃ a b, (fpmBCs s i bcs p xm ym acc).2.1 = p.translate a b ∧
        (fpmBCs s i bcs p xm ym acc).2.2.1 = xm + a ∧
        (fpmBCs s i bcs p xm ym acc).2.2.2 = ym + b := by
  intro bcs
  induction bcs with
  | nil =>
    intro p xm ym acc
    refine ⟨0, 0, ?_, ?_, ?_⟩ <;> simp [fpmBCs, translateP_zero]
  | cons bc rest ih =>
    intro p xm ym acc
    simp only [fpmBCs]
    split
    · obtain ⟨a, b, h1, h2, h3⟩ := ih (p.translate (fpmXd p i bc) (fpmYd p i bc))
        (xm + fpmXd p i bc) (ym + fpmYd p i bc)
        (if s.moveConflicts (p.translate (fpmXd p i bc) (fpmYd p i bc)) = false
         then acc ++
           [mkMv (p.translate (fpmXd p i bc) (fpmYd p i bc)).name
              (Int.ofNat (p.translate (fpmXd p i bc) (fpmYd p i bc)).orientation)
              (xm + fpmXd p i bc) (ym + fpmYd p i bc)]
         else acc)
      refine ⟨fpmXd p i bc + a, fpmYd p i bc + b, ?_, ?_, ?_⟩
      · rw [h1, translateP_comp]
      · rw [h2]; ring
      · rw [h3]; ring
    · exact ih p xm ym acc

theorem fpmIdx_state (s : Gamestate) :
    ∀ (idxs : List Nat) (p : Piece) (xm ym : Int) (acc : List Mv),
      ∃ a b, (fpmIdx s idxs p xm ym acc).2.1 = p.translate a b ∧
        (fpmIdx s idxs p xm ym acc).2.2.1 = xm + a ∧
        (fpmIdx s idxs p xm ym acc).2.2.2 = ym + b := by
  intro idxs
  induction idxs with
  | nil =>
    intro p xm ym acc
    refine ⟨0, 0, ?_, ?_, ?_⟩ <;> simp [fpmIdx, translateP_zero]
  | cons i rest ih =>
    intro p xm ym acc
    simp only [fpmIdx]
    obtain ⟨a1, b1, hP, hX, hY⟩ :=
      fpmBCs_state s i (s.getCorners s.turn) p xm ym acc
    rw [hP, hX, hY]
    obtain ⟨a2, b2, h1, h2, h3⟩ := ih (p.translate a1 b1) (xm + a1) (ym + b1)
      (fpmBCs s i (s.getCorners s.turn) p xm ym acc).1
    refine ⟨a1 + a2, b1 + b2, ?_, ?_, ?_⟩
    · rw [h1, translateP_comp]
    · rw [h2]; ring
    · rw [h3]; ring

theorem corner_translate_hit (p : Piece) (i : Nat) (bc : Crn)
    (hlen : i < p.corners.length) (hdir : fpmDir p i bc) :
    swapCrn bc ∈ (p.translate (fpmXd p i bc) (fpmYd p i bc)).corners := by
  have hlen2 : i < (p.translate (fpmXd p i bc) (fpmYd p i bc)).corners.length := by
    rw [translate_corners_length]; exact hlen
  have hget : (p.translate (fpmXd p i bc) (fpmYd p i bc)).corners.getD i
      ⟨(0, 0), (0, 0)⟩ =
      mapCrn (translatePt (fpmXd p i bc) (fpmYd p i bc))
        (p.corners.getD i ⟨(0, 0), (0, 0)⟩) := by
    rw [List.getD_eq_getElem _ _ hlen2, List.getD_eq_getElem _ _ hlen]
    simp only [translate_corners, List.getElem_map]
  have hpc : mapCrn (translatePt (fpmXd p i bc) (fpmYd p i bc))
      (p.corners.getD i ⟨(0, 0), (0, 0)⟩) = swapCrn bc := by
    obtain ⟨hd1, hd2⟩ := hdir
    unfold fpmXd fpmYd
    cases hpc0 : p.corners.getD i ⟨(0, 0), (0, 0)⟩ with
    | mk p0 p1 =>
      rw [hpc0] at hd1 hd2
      obtain ⟨a0, a1⟩ := p0
      obtain ⟨b0, b1⟩ := p1
      cases hbc0 : swapCrn bc with
      | mk q0 q1 =>
        rw [hbc0] at hd1 hd2
        obtain ⟨c0, c1⟩ := q0
        obtain ⟨d0, d1⟩ := q1
        simp only [mapCrn, translatePt, Crn.mk.injEq, Prod.mk.injEq] at *
        omega
  have hmem : (p.translate (fpmXd p i bc) (fpmYd p i bc)).corners.getD i
      ⟨(0, 0), (0, 0)⟩ ∈ (p.translate (fpmXd p i bc) (fpmYd p i bc)).corners := by
    rw [List.getD_eq_getElem _ _ hlen2]
    exact List.getElem_mem _
  rw [hget, hpc] at hmem
  exact hmem

theorem fpmBCs_emits (s : Gamestate) (i : Nat) :
    ∀ (bcs : List Crn) (p : Piece) (acc : List Mv) (m : Mv),
      p.shape ≠ [] → i < p.corners.length →
      (∀ b2 ∈ bcs, b2 ∈ s.getCorners s.turn) →
      m ∈ (fpmBCs s i bcs p (findExtremes p.shape).1
        (findExtremes p.shape).2.2.1 acc).1 →
      m ∈ acc ∨ EmittedRel s p m := by
  intro bcs
  induction bcs with
  | nil => intro p acc m _ _ _ hm; exact Or.inl hm
  | cons bc rest ih =>
    intro p acc m hne hlen hsub hm
    simp only [fpmBCs] at hm
    by_cases hdir : fpmDir p i bc
    · rw [if_pos hdir] at hm
      have hxe : (findExtremes p.shape).1 + fpmXd p i bc =
          (findExtremes (p.translate (fpmXd p i bc) (fpmYd p i bc)).shape).1 := by
        rw [translate_shape,
          findExtremes_translate_x p.shape hne (fpmXd p i bc) (fpmYd p i bc)]
      have hye : (findExtremes p.shape).2.2.1 + fpmYd p i bc =
          (findExtremes (p.translate (fpmXd p i bc) (fpmYd p i bc)).shape).2.2.1 := by
        rw [translate_shape,
          findExtremes_translate_y p.shape hne (fpmXd p i bc) (fpmYd p i bc)]
      rw [hxe, hye] at hm
      have hne2 := translate_shape_ne p (fpmXd p i bc) (fpmYd p i bc) hne
      have hlen2 : i < (p.translate (fpmXd p i bc) (fpmYd p i bc)).corners.length := by
        rw [translate_corners_length]; exact hlen
      have hrec := ih (p.translate (fpmXd p i bc) (fpmYd p i bc)) _ m hne2 hlen2
        (fun b2 hb2 => hsub b2 (List.mem_cons_of_mem bc hb2)) hm
      rcases hrec with hacc | hrel
      · by_cases hconf : s.moveConflicts
            (p.translate (fpmXd p i bc) (fpmYd p i bc)) = false
        · rw [if_pos hconf] at hacc
          rcases List.mem_append.mp hacc with h1 | h1
          · exact Or.inl h1
          · right
            have hm2 := List.mem_singleton.mp h1
            refine ⟨fpmXd p i bc, fpmYd p i bc, bc,
              hsub bc (List.mem_cons_self bc rest),
              corner_translate_hit p i bc hlen hdir, hconf, ?_⟩
            rw [hm2, translate_name, translate_orient]
        · rw [if_neg hconf] at hacc
          exact Or.inl hacc
      · exact Or.inr (emittedRel_translate s p _ _ m hrel)
    · rw [if_neg hdir] at hm
      exact ih p acc m hne hlen
        (fun b2 hb2 => hsub b2 (List.mem_cons_of_mem bc hb2)) hm

theorem fpmIdx_emits (s : Gamestate) :
    ∀ (idxs : List Nat) (p : Piece) (acc : List Mv) (m : Mv),
      p.shape ≠ [] → (∀ j ∈ idxs, j < p.corners.length) →
      m ∈ (fpmIdx s idxs p (findExtremes p.shape).1
        (findExtremes p.shape).2.2.1 acc).1 →
      m ∈ acc ∨ EmittedRel s p m := by
  intro idxs
  induction idxs with
  | nil => intro p acc m _ _ hm; exact Or.inl hm
  | cons i rest ih =>
    intro p acc m hne hbound hm
    simp only [fpmIdx] at hm
    obtain ⟨a, b, hP, hX, hY⟩ := fpmBCs_state s i (s.getCorners s.turn) p
      (findExtremes p.shape).1 (findExtremes p.shape).2.2.1 acc
    rw [hP, hX, hY] at hm
    have hxe : (findExtremes p.shape).1 + a =
        (findExtremes (p.translate a b).shape).1 := by
      rw [translate_shape, findExtremes_translate_x p.shape hne a b]
    have hye : (findExtremes p.shape).2.2.1 + b =
        (findExtremes (p.translate a b).shape).2.2.1 := by
      rw [translate_shape, findExtremes_translate_y p.shape hne a b]
    rw [hxe, hye] at hm
    have hrec := ih (p.translate a b) _ m (translate_shape_ne p a b hne)
      (fun j hj => by
        rw [translate_corners_length]
        exact hbound j (List.mem_cons_of_mem i hj)) hm
    rcases hrec with hacc | hrel
    · exact fpmBCs_emits s i (s.getCorners s.turn) p acc m hne
        (hbound i (List.mem_cons_self i rest)) (fun b2 hb2 => hb2) hacc
    · exact Or.inr (emittedRel_translate s p a b m hrel)

theorem findPieceMoves_emits (s : Gamestate) (p : Piece) (m : Mv)
    (hne : p.shape ≠ []) (hm : m ∈ (s.findPieceMoves p).1) : EmittedRel s p m := by
  have e2 : (s.findPieceMoves p).1 =
      (fpmIdx s (List.range (splitCornerArray p.corners).length) p
        (findExtremes p.shape).1 (findExtremes p.shape).2.2.1 []).1 := rfl
  rw [e2] at hm
  have h := fpmIdx_emits s (List.range (splitCornerArray p.corners).length) p
    [] m hne (fun j hj => by
      simpa [splitCornerArray] using List.mem_range.mp hj) hm
  rcases h with h1 | h1
  · cases h1
  · exact h1

theorem findPieceMoves_state (s : Gamestate) (p : Piece) :
    ∃ a b, (s.findPieceMoves p).2 = p.translate a b := by
  have e3 : (s.findPieceMoves p).2 =
      (fpmIdx s (List.range (splitCornerArray p.corners).length) p
        (findExtremes p.shape).1 (findExtremes p.shape).2.2.1 []).2.1 := rfl
  obtain ⟨a, b, h1, _, _⟩ := fpmIdx_state s
    (List.range (splitCornerArray p.corners).length) p
    (findExtremes p.shape).1 (findExtremes p.shape).2.2.1 []
  exact ⟨a, b, by rw [e3, h1]⟩

theorem applyStep_shape_ne (st : PieceStep) (p : Piece) (h : p.shape ≠ []) :
    (applyStep st p).shape ≠ [] := by
  cases st with
  | start => exact h
  | rot =>
    show (p.rotate 1).shape ≠ []
    unfold Piece.rotate
    split_ifs <;>
      simp only [Piece.reduceOrientation, ne_eq, List.map_eq_nil_iff] <;>
      exact h
  | flip =>
    show p.flipV.shape ≠ []
    simp only [Piece.flipV, Piece.reduceOrientation, ne_eq, List.map_eq_nil_iff]
    exact h

theorem runPiece_emits (s : Gamestate) :
    ∀ (steps : List PieceStep) (p : Piece) (m : Mv),
      p.shape ≠ [] → m ∈ (runPiece s steps p).1 →
      ∃ q ∈ enumPiecesAux steps p, EmittedRel s q m := by
  intro steps
  induction steps with
  | nil => intro p m _ hm; cases hm
  | cons st rest ih =>
    intro p m hne hm
    have hne1 : (applyStep st p).shape ≠ [] := applyStep_shape_ne st p hne
    simp only [runPiece] at hm
    rcases List.mem_append.mp hm with h1 | h1
    · exact ⟨applyStep st p, List.mem_cons_self _ _,
        findPieceMoves_emits s _ m hne1 h1⟩
    · obtain ⟨a, b, hab⟩ := findPieceMoves_state s (applyStep st p)
      rw [hab] at h1
      obtain ⟨q2, hq2, hrel⟩ := ih ((applyStep st p).translate a b) m
        (translate_shape_ne _ a b hne1) h1
      obtain ⟨q, hq, a2, b2, hq2eq⟩ :=
        enumPiecesAux_translate rest (applyStep st p) a b q2 hq2
      rw [hq2eq] at hrel
      exact ⟨q, List.mem_cons_of_mem _ hq, emittedRel_translate s q a2 b2 m hrel⟩

theorem listMovesGo_emits (s : Gamestate) :
    ∀ (pieces : List Piece) (m : Mv),
      (∀ p ∈ pieces, p.shape ≠ []) → m ∈ listMovesGo s pieces →
      ∃ p ∈ pieces, ∃ q ∈ enumPiecesAux (pieceSteps p) p, EmittedRel s q m := by
  intro pieces
  induction pieces with
  | nil => intro m _ hm; cases hm
  | cons p ps ih =>
    intro m hall hm
    simp only [listMovesGo] at hm
    rcases List.mem_append.mp hm with h1 | h1
    · obtain ⟨q, hq, hrel⟩ := runPiece_emits s (pieceSteps p) p m
        (hall p (List.mem_cons_self p ps)) h1
      exact ⟨p, List.mem_cons_self p ps, q, hq, hrel⟩
    · obtain ⟨p2, hp2, q, hq, hrel⟩ := ih m
        (fun p2 hp2 => hall p2 (List.mem_cons_of_mem p hp2)) h1
      exact ⟨p2, List.mem_cons_of_mem p hp2, q, hq, hrel⟩

theorem sortedHand_mem (s : Gamestate) (c : Nat) (p : Piece)
    (h : p ∈ s.sortedHand c) : ∃ k, s.getHand c k = true ∧ p = kindPiece k := by
  unfold Gamestate.sortedHand at h
  obtain ⟨k, _, hsome⟩ := List.mem_filterMap.mp h
  by_cases hh : s.getHand c k = true
  · rw [if_pos hh] at hsome
    exact ⟨k, hh, (Option.some.inj hsome).symm⟩
  · rw [if_neg hh] at hsome
    exact Option.noConfusion hsome

theorem kindPiece_shape_ne : ∀ k : PieceKind, (kindPiece k).shape ≠ [] := by
  decide

theorem listMoves_emits (s : Gamestate) (m : Mv) (hm : m ∈ s.listMoves) :
    ∃ k, s.getHand s.turn k = true ∧ ∃ q ∈ enumPieces k, EmittedRel s q m := by
  unfold Gamestate.listMoves at hm
  split at hm
  · cases hm
  · have hforall : ∀ p ∈ s.sortedHand s.turn, p.shape ≠ [] := by
      intro p hp
      obtain ⟨k, _, hpk⟩ := sortedHand_mem s s.turn p hp
      rw [hpk]
      exact kindPiece_shape_ne k
    obtain ⟨p, hp, q, hq, hrel⟩ := listMovesGo_emits s _ m hforall hm
    obtain ⟨k, hh, hpk⟩ := sortedHand_mem s s.turn p hp
    subst hpk
    exact ⟨k, hh, q, hq, hrel⟩

theorem subListB_mem {α : Type} [DecidableEq α] {a b : List α}
    (h : subListB a b = true) : ∀ x ∈ a, x ∈ b := by
  intro x hx
  exact of_decide_eq_true (List.all_eq_true.mp h x hx)

theorem setEqB_mem_iff {α : Type} [DecidableEq α] {a b : List α}
    (h : setEqB a b = true) : ∀ x, x ∈ a ↔ x ∈ b := by
  unfold setEqB at h
  rw [Bool.and_eq_true] at h
  obtain ⟨h1, h2⟩ := h
  exact fun x => ⟨fun hx => subListB_mem h1 x hx, fun hx => subListB_mem h2 x hx⟩

theorem mem_map_iff_of {α β : Type} (f : α → β) {a b : List α}
    (h : ∀ x, x ∈ a ↔ x ∈ b) : ∀ y, y ∈ a.map f ↔ y ∈ b.map f := by
  intro y
  simp only [List.mem_map]
  constructor
  · rintro ⟨x, hx, rfl⟩
    exact ⟨x, (h x).mp hx, rfl⟩
  · rintro ⟨x, hx, rfl⟩
    exact ⟨x, (h x).mpr hx, rfl⟩

theorem any_congr_mem {α : Type} {a b : List α} (h : ∀ x, x ∈ a ↔ x ∈ b)
    (f : α → Bool) : a.any f = b.any f := by
  by_cases ha : a.any f = true
  · obtain ⟨x, hx, hfx⟩ := List.any_eq_true.mp ha
    rw [ha]
    exact (List.any_eq_true.mpr ⟨x, (h x).mp hx, hfx⟩).symm
  · have hb : ¬ b.any f = true := by
      intro hb
      obtain ⟨x, hx, hfx⟩ := List.any_eq_true.mp hb
      exact ha (List.any_eq_true.mpr ⟨x, (h x).mpr hx, hfx⟩)
    rw [Bool.eq_false_iff.mpr ha, Bool.eq_false_iff.mpr hb]

theorem recon_enum : ∀ k : PieceKind, ∀ q ∈ enumPieces k,
    q.name = kindName k ∧ q.shape ≠ [] ∧ pieceReconOK k q = true := by
  decide

theorem pieceReconOK_spec (k : PieceKind) (q : Piece)
    (h : pieceReconOK k q = true) :
    ∃ pr, (kindPiece k).setOrientation (Int.ofNat q.orientation) = some pr ∧
      pr.1.name = q.name ∧ pr.1.orientation = q.orientation ∧
      setEqB ((pr.1.translate
          ((findExtremes q.shape).1 - (findExtremes pr.1.shape).1)
          ((findExtremes q.shape).2.2.1 - (findExtremes pr.1.shape).2.2.1)).shape)
        q.shape = true ∧
      setEqB ((pr.1.translate
          ((findExtremes q.shape).1 - (findExtremes pr.1.shape).1)
          ((findExtremes q.shape).2.2.1 - (findExtremes pr.1.shape).2.2.1)).corners)
        q.corners = true := by
  unfold pieceReconOK at h
  cases hso : (kindPiece k).setOrientation (Int.ofNat q.orientation) with
  | none => rw [hso] at h; cases h
  | some pr =>
    rw [hso] at h
    simp only [Bool.and_eq_true, decide_eq_true_eq] at h
    obtain ⟨⟨⟨h1, h2⟩, h3⟩, h4⟩ := h
    exact ⟨pr, rfl, h1, h2, h3, h4⟩

/-- C3: every move emitted by listMoves is accepted by update: the piece
is still in the mover's hand, update's reconstruction of the piece at the
move's orientation code and anchor passes the corner pairing against an
open corner, clears the geometric conflict check, and update returns the
new state rather than a rejection. -/
theorem c3_listMoves_accepted (s : Gamestate) (m : Mv)
    (hm : m ∈ s.listMoves) : (s.update m).isOk = true := by
  obtain ⟨k, hhand, q, hq, hrel⟩ := listMoves_emits s m hm
  obtain ⟨hnm, hne, hrok⟩ := recon_enum k q hq
  obtain ⟨pr, hso, _, _, hshape, hcorn⟩ := pieceReconOK_spec k q hrok
  obtain ⟨dx, dy, bc, hbc, hcmem, hconf, hmEq⟩ := hrel
  have hX : (findExtremes (q.translate dx dy).shape).1 =
      (findExtremes q.shape).1 + dx := by
    rw [translate_shape]
    exact findExtremes_translate_x q.shape hne dx dy
  have hY : (findExtremes (q.translate dx dy).shape).2.2.1 =
      (findExtremes q.shape).2.2.1 + dy := by
    rw [translate_shape]
    exact findExtremes_translate_y q.shape hne dx dy
  have hmemiffS := setEqB_mem_iff hshape
  have hmemiffC := setEqB_mem_iff hcorn
  have hPP : placedPiece pr.1 (findExtremes (q.translate dx dy).shape).1
      (findExtremes (q.translate dx dy).shape).2.2.1 =
      (pr.1.translate ((findExtremes q.shape).1 - (findExtremes pr.1.shape).1)
        ((findExtremes q.shape).2.2.1 - (findExtremes pr.1.shape).2.2.1)).translate
        dx dy := by
    unfold placedPiece
    rw [translateP_comp, hX, hY]
    have e1 : (findExtremes q.shape).1 + dx - (findExtremes pr.1.shape).1 =
        (findExtremes q.shape).1 - (findExtremes pr.1.shape).1 + dx := by ring
    have e2 : (findExtremes q.shape).2.2.1 + dy - (findExtremes pr.1.shape).2.2.1 =
        (findExtremes q.shape).2.2.1 - (findExtremes pr.1.shape).2.2.1 + dy := by
      ring
    rw [e1, e2]
  have hc2 : swapCrn bc ∈ (placedPiece pr.1
      (findExtremes (q.translate dx dy).shape).1
      (findExtremes (q.translate dx dy).shape).2.2.1).corners := by
    rw [hPP, translate_corners]
    have hqm : swapCrn bc ∈ (q.translate dx dy).corners := hcmem
    rw [translate_corners] at hqm
    exact (mem_map_iff_of (mapCrn (translatePt dx dy)) hmemiffC (swapCrn bc)).mpr
      hqm
  have hcf2 : s.moveConflicts (placedPiece pr.1
      (findExtremes (q.translate dx dy).shape).1
      (findExtremes (q.translate dx dy).shape).2.2.1) = false := by
    rw [hPP]
    show ((pr.1.translate ((findExtremes q.shape).1 - (findExtremes pr.1.shape).1)
        ((findExtremes q.shape).2.2.1 - (findExtremes pr.1.shape).2.2.1)).translate
        dx dy).shape.any (cellConflict s.board s.turn) = false
    rw [translate_shape,
      any_congr_mem (mem_map_iff_of (translatePt dx dy) hmemiffS)
        (cellConflict s.board s.turn),
      ← translate_shape]
    exact hconf
  have hcheck : s.moveCheck (placedPiece pr.1
      (findExtremes (q.translate dx dy).shape).1
      (findExtremes (q.translate dx dy).shape).2.2.1) = true := by
    unfold Gamestate.moveCheck
    simp only [splitCornerArray]
    have hd : ((placedPiece pr.1 (findExtremes (q.translate dx dy).shape).1
        (findExtremes (q.translate dx dy).shape).2.2.1).corners.any
        fun cur => (s.getCorners s.turn).any
          fun bc2 => decide (bc2 = swapCrn cur)) = true := by
      refine List.any_eq_true.mpr ⟨swapCrn bc, hc2, ?_⟩
      refine List.any_eq_true.mpr ⟨bc, hbc, ?_⟩
      rw [swapCrn_swapCrn]
      exact decide_eq_true rfl
    simp [hd, hcf2]
  rw [hmEq, hnm, update_mkMv,
    updatePlace_reduce s k (Int.ofNat q.orientation)
      (findExtremes (q.translate dx dy).shape).1
      (findExtremes (q.translate dx dy).shape).2.2.1 pr hso hhand]
  rw [if_neg (by simp [hcheck])]
  rfl

/-- Witness for C3: in the state holding only the monomino, listMoves
emits exactly the move placing it on the starting corner cell, and update
accepts it. -/
theorem c3_listMoves_accepted_witness :
    (({ initState with blue := fun k => decide (k = PieceKind.One) } :
      Gamestate).update (mkMv "One" 0 0 0)).isOk = true :=
  c3_listMoves_accepted
    { initState with blue := fun k => decide (k = PieceKind.One) }
    (mkMv "One" 0 0 0) (by decide)

theorem cellConflict_false {board : Board} {color : Nat} {c : Pt}
    (h : cellConflict board color c = false) :
    OnBoard c ∧ board c = 0 ∧
      (c.1 < boardsize - 1 → board (c.1 + 1, c.2) ≠ color) ∧
      (c.2 < boardsize - 1 → board (c.1, c.2 + 1) ≠ color) ∧
      (0 < c.1 → board (c.1 - 1, c.2) ≠ color) ∧
      (0 < c.2 → board (c.1, c.2 - 1) ≠ color) := by
  unfold cellConflict at h
  split at h
  · exact Bool.noConfusion h
  · split at h
    · exact Bool.noConfusion h
    · rename_i h1 h2
      push_neg at h1
      rw [not_not] at h2
      simp only [Bool.or_eq_false_iff, Bool.and_eq_false_iff,
        decide_eq_false_iff_not] at h
      obtain ⟨⟨⟨hR, hU⟩, hL⟩, hD⟩ := h
      refine ⟨⟨h1.1, h1.2.2.1, h1.2.1, h1.2.2.2⟩, h2, ?_, ?_, ?_, ?_⟩
      · intro hg
        rcases hR with hg2 | hb
        · exact absurd hg hg2
        · exact hb
      · intro hg
        rcases hU with hg2 | hb
        · exact absurd hg hg2
        · exact hb
      · intro hg
        rcases hL with hg2 | hb
        · exact absurd hg hg2
        · exact hb
      · intro hg
        rcases hD with hg2 | hb
        · exact absurd hg hg2
        · exact hb

theorem cellConflict_false_adj {board : Board} {color : Nat} {c d : Pt}
    (h : cellConflict board color c = false) (hadj : OrthAdj c d)
    (hdon : OnBoard d) : board d ≠ color := by
  obtain ⟨-, -, hR, hU, hL, hD⟩ := cellConflict_false h
  obtain ⟨c1, c2⟩ := c
  obtain ⟨d1, d2⟩ := d
  unfold OrthAdj at hadj
  unfold OnBoard at hdon
  simp only at hadj hdon hR hU hL hD ⊢
  rcases hadj with ⟨hx, hy | hy⟩ | ⟨hy2, hx2 | hx2⟩
  · have he : (c1, c2 - 1) = (d1, d2) := by
      rw [Prod.mk.injEq]
      exact ⟨by omega, by omega⟩
    rw [← he]
    exact hD (by omega)
  · have he : (c1, c2 + 1) = (d1, d2) := by
      rw [Prod.mk.injEq]
      exact ⟨by omega, by omega⟩
    rw [← he]
    exact hU (by omega)
  · have he : (c1 - 1, c2) = (d1, d2) := by
      rw [Prod.mk.injEq]
      exact ⟨by omega, by omega⟩
    rw [← he]
    exact hL (by omega)
  · have he : (c1 + 1, c2) = (d1, d2) := by
      rw [Prod.mk.injEq]
      exact ⟨by omega, by omega⟩
    rw [← he]
    exact hR (by omega)

theorem moveConflicts_false_cells {s : Gamestate} {p : Piece}
    (h : s.moveConflicts p = false) :
    ∀ c ∈ p.shape, cellConflict s.board s.turn c = false := by
  unfold Gamestate.moveConflicts at h
  intro c hc
  exact Bool.eq_false_iff.mpr (List.any_eq_false.mp h c hc)

theorem moveCheck_conflicts {s : Gamestate} {p : Piece}
    (h : s.moveCheck p = true) : s.moveConflicts p = false := by
  simp only [Gamestate.moveCheck] at h
  split at h
  · exact Bool.noConfusion h
  · cases hb : s.moveConflicts p with
    | false => rfl
    | true => rw [hb] at h; exact Bool.noConfusion h

theorem colorSetGo_spec (color : Nat) :
    ∀ (cells : List Pt) (b : Board), (∀ c ∈ cells, b c = 0) → cells.Nodup →
      ∀ x, (colorSetGo color b cells).2 x =
        if x ∈ cells then color else b x := by
  intro cells
  induction cells with
  | nil =>
    intro b _ _ x
    simp [colorSetGo]
  | cons c rest ih =>
    intro b hz hnd x
    have hbc : b c = 0 := hz c (List.mem_cons_self c rest)
    unfold colorSetGo
    rw [if_neg (by simp [hbc])]
    have hcne : c ∉ rest := (List.nodup_cons.mp hnd).1
    have hz2 : ∀ d ∈ rest, bset b c color d = 0 := by
      intro d hd
      unfold bset
      rw [if_neg (by intro hdc; exact hcne (hdc ▸ hd))]
      exact hz d (List.mem_cons_of_mem c hd)
    rw [ih (bset b c color) hz2 (List.nodup_cons.mp hnd).2 x]
    by_cases hx : x ∈ rest
    · rw [if_pos hx, if_pos (List.mem_cons_of_mem c hx)]
    · rw [if_neg hx]
      unfold bset
      by_cases hxc : x = c
      · rw [if_pos hxc, if_pos (by rw [hxc]; exact List.mem_cons_self c rest)]
      · rw [if_neg hxc, if_neg (by
          intro hmem
          rcases List.mem_cons.mp hmem with h1 | h1
          · exact hxc h1
          · exact hx h1)]

theorem applyPlace_board (s : Gamestate) (name : String) (kind : PieceKind)
    (piece : Piece) :
    (applyPlace s name kind piece).board =
      (colorSet s.board piece.shape s.turn).2 := by
  unfold applyPlace Gamestate.setHand Gamestate.setCorners
  split_ifs <;> rfl

theorem applyPlace_turn (s : Gamestate) (name : String) (kind : PieceKind)
    (piece : Piece) :
    (applyPlace s name kind piece).turn = advanceTurn s.turn := by
  unfold applyPlace Gamestate.setHand Gamestate.setCorners
  split_ifs <;> rfl

theorem advanceTurn_range {t : Nat} (h1 : 1 ≤ t) (h4 : t ≤ 4) :
    1 ≤ advanceTurn t ∧ advanceTurn t ≤ 4 := by
  unfold advanceTurn
  split <;> omega

theorem translatePt_inj (dx dy : Int) : Function.Injective (translatePt dx dy) := by
  intro a b h
  obtain ⟨a1, a2⟩ := a
  obtain ⟨b1, b2⟩ := b
  simp only [translatePt, Prod.mk.injEq] at h ⊢
  exact ⟨by omega, by omega⟩

theorem update_ok_cases (s : Gamestate) (m : Mv) (s2 : Gamestate)
    (h : s.update m = .ok s2) :
    (m.length ≠ 4 ∧ s2 = passState s) ∨
    (∃ name code mx my kind pr,
      m = [.pstr name, .pint code, .pint mx, .pint my] ∧
      nameToKind name = some kind ∧
      (kindPiece kind).setOrientation code = some pr ∧
      s.moveCheck (placedPiece pr.1 mx my) = true ∧
      s2 = applyPlace s name kind (placedPiece pr.1 mx my)) := by
  unfold Gamestate.update at h
  split at h
  · rename_i hlen
    injection h with h2
    exact Or.inl ⟨hlen, h2.symm⟩
  · rename_i hlen
    rw [not_not] at hlen
    right
    rcases m with _ | ⟨v1, m⟩
    · simp only [List.length_nil] at hlen
      omega
    rcases m with _ | ⟨v2, m⟩
    · simp only [List.length_cons, List.length_nil] at hlen
      omega
    rcases m with _ | ⟨v3, m⟩
    · simp only [List.length_cons, List.length_nil] at hlen
      omega
    rcases m with _ | ⟨v4, m⟩
    · simp only [List.length_cons, List.length_nil] at hlen
      omega
    rcases m with _ | ⟨v5, m⟩
    · rcases v1 with name | z1
      · rcases v2 with t2 | code
        · exact UpdResult.noConfusion h
        · rcases v3 with t3 | mx
          · exact UpdResult.noConfusion h
          · rcases v4 with t4 | my
            · exact UpdResult.noConfusion h
            · have h2 : updatePlace s name code mx my = .ok s2 := h
              unfold updatePlace at h2
              split at h2
              · exact UpdResult.noConfusion h2
              · rename_i kind hk
                split at h2
                · exact UpdResult.noConfusion h2
                · rename_i hhand
                  split at h2
                  · exact UpdResult.noConfusion h2
                  · rename_i pr hpr
                    split at h2
                    · exact UpdResult.noConfusion h2
                    · rename_i hchk
                      injection h2 with h3
                      have hchk2 : s.moveCheck (placedPiece pr.1 mx my) =
                          true := by
                        cases hb : s.moveCheck (placedPiece pr.1 mx my) with
                        | false => exact absurd hb hchk
                        | true => rfl
                      exact ⟨name, code, mx, my, kind, pr, rfl, hk, hpr,
                        hchk2, h3.symm⟩
      · exact UpdResult.noConfusion h
    · simp only [List.length_cons, List.length_nil] at hlen
      omega

theorem placedCellsOfMv_eq (name : String) (code mx my : Int)
    (kind : PieceKind) (pr : Piece × Nat) (hk : nameToKind name = some kind)
    (hpr : (kindPiece kind).setOrientation code = some pr) :
    placedCellsOfMv [.pstr name, .pint code, .pint mx, .pint my] =
      (placedPiece pr.1 mx my).shape := by
  simp only [placedCellsOfMv, hk, hpr]

theorem goodHist_init : GoodHist initState [] := by
  refine ⟨⟨by decide, by decide⟩, ?_, ?_, ?_, ?_, List.Pairwise.nil⟩
  · intro pl hpl
    exact absurd hpl (List.not_mem_nil pl)
  · intro pl hpl
    exact absurd hpl (List.not_mem_nil pl)
  · intro pl hpl
    exact absurd hpl (List.not_mem_nil pl)
  · intro c hc
    exact absurd rfl hc

theorem goodHist_pass (s : Gamestate) (h : List Placement)
    (gh : GoodHist s h) : GoodHist (passState s) h := by
  obtain ⟨⟨ht1, ht4⟩, g2, g3, g4, g5, g6⟩ := gh
  exact ⟨advanceTurn_range ht1 ht4, g2, g3, g4, g5, g6⟩

theorem goodHist_place (s : Gamestate) (h : List Placement) (name : String)
    (kind : PieceKind) (P : Piece) (gh : GoodHist s h)
    (hchk : s.moveCheck P = true) (hnodup : P.shape.Nodup) :
    GoodHist (applyPlace s name kind P)
      ({ color := s.turn, cells := P.shape } :: h) := by
  obtain ⟨⟨ht1, ht4⟩, g2, g3, g4, g5, g6⟩ := gh
  have hconf := moveCheck_conflicts hchk
  have hcells := moveConflicts_false_cells hconf
  have hcf := fun c hc => cellConflict_false (hcells c hc)
  have hboard : ∀ x, (applyPlace s name kind P).board x =
      if x ∈ P.shape then s.turn else s.board x := by
    intro x
    rw [applyPlace_board]
    unfold colorSet
    rw [if_pos ⟨ht1, ht4⟩]
    exact colorSetGo_spec s.turn P.shape s.board
      (fun c hc => (hcf c hc).2.1) hnodup x
  refine ⟨?_, ?_, ?_, ?_, ?_, ?_⟩
  · rw [applyPlace_turn]
    exact advanceTurn_range ht1 ht4
  · intro pl hpl
    rcases List.mem_cons.mp hpl with rfl | hpl2
    · exact ⟨ht1, ht4⟩
    · exact g2 pl hpl2
  · intro pl hpl c hc
    rcases List.mem_cons.mp hpl with rfl | hpl2
    · exact (hcf c hc).1
    · exact g3 pl hpl2 c hc
  · intro pl hpl c hc
    rw [hboard c]
    rcases List.mem_cons.mp hpl with rfl | hpl2
    · rw [if_pos hc]
    · have hnotP : c ∉ P.shape := by
        intro hcP
        have h0 := (hcf c hcP).2.1
        have hc2 := g4 pl hpl2 c hc
        have hcol := g2 pl hpl2
        omega
      rw [if_neg hnotP]
      exact g4 pl hpl2 c hc
  · intro c hc0
    rw [hboard c] at hc0
    by_cases hcP : c ∈ P.shape
    · exact ⟨{ color := s.turn, cells := P.shape },
        List.mem_cons_self _ _, hcP⟩
    · rw [if_neg hcP] at hc0
      obtain ⟨pl, hpl, hcpl⟩ := g5 c hc0
      exact ⟨pl, List.mem_cons_of_mem _ hpl, hcpl⟩
  · refine List.Pairwise.cons ?_ g6
    intro pl2 hpl2 hcoleq a ha b hb hadj
    have hbon := g3 pl2 hpl2 b hb
    have hbcol := g4 pl2 hpl2 b hb
    exact cellConflict_false_adj (hcells a ha) hadj hbon
      (by rw [hbcol]; exact hcoleq.symm)

theorem reach_goodHist {s : Gamestate} {h : List Placement}
    (hr : Reach s h) : GoodHist s h := by
  induction hr with
  | init => exact goodHist_init
  | pass hr2 hup hlen ih =>
    rcases update_ok_cases _ _ _ hup with ⟨_, hs2⟩ | ⟨n, c, x, y, k, pr, hmEq, _, _, _, _⟩
    · rw [hs2]
      exact goodHist_pass _ _ ih
    · exact absurd (by rw [hmEq]; rfl) hlen
  | place hr2 hup hlen ih =>
    rcases update_ok_cases _ _ _ hup with ⟨hne, _⟩ |
      ⟨n, c, x, y, k, pr, hmEq, hk, hpr, hchk, hs2⟩
    · exact absurd hlen hne
    · have hmemc := setOrientation_mem_cand k c pr hpr
      have hnd := (reconCand_facts k pr.1 hmemc).2.1
      have hndP : (placedPiece pr.1 x y).shape.Nodup := by
        unfold placedPiece
        rw [translate_shape]
        exact hnd.map (translatePt_inj _ _)
      rw [hs2, hmEq, placedCellsOfMv_eq n c x y k pr hk hpr]
      exact goodHist_place _ _ n k _ ih hchk hndP

/-- C8: along any sequence of moves accepted by update from the initial
state, the recorded placements are pairwise separated: two placements of
the same color never put cells orthogonally adjacent to one another (the
invariant kept by moveConflicts' lateral-neighbour checks). -/
theorem c8_no_same_color_adjacency (s : Gamestate) (h : List Placement)
    (hr : Reach s h) : List.Pairwise SepPlacements h :=
  (reach_goodHist hr).2.2.2.2.2

/-- Witness for C8: a pass move from the initial state is accepted by
update, and the resulting (empty) history is pairwise separated. -/
theorem c8_no_same_color_adjacency_witness :
    List.Pairwise SepPlacements ([] : List Placement) :=
  c8_no_same_color_adjacency (passState initState) []
    (Reach.pass Reach.init
      (rfl : initState.update [] = UpdResult.ok (passState initState))
      (by decide))
